import Mathlib

/-!
Verification development for the `onepass-audioclean-seg` segmentation pipeline.

The Python sources are shallowly embedded: every time value (a Python 64-bit
float carrying at most three meaningful decimals at module boundaries) is
modelled as a rational number, `round(x, 3)` is modelled by `round3` below,
lists are Lean lists, and fallible functions return `Except`/`Option`.
Python's `round` uses round-half-to-even on binary doubles; `round3` uses
round-half-up on rationals.  The two agree away from exact `5·10⁻⁴` ties,
and no value reasoned about below sits on such a tie.
-/

set_option linter.unusedVariables false

namespace OnePassSeg

/-- Model of Python `round(q, 3)`: round to the nearest multiple of `1/1000`. -/
def round3 (q : ℚ) : ℚ := (round (1000 * q) : ℚ) / 1000

/-- A rational is on the millisecond grid iff rounding it to 3 decimals is a no-op. -/
def OnGrid (q : ℚ) : Prop := round3 q = q

instance (q : ℚ) : Decidable (OnGrid q) := by unfold OnGrid; infer_instance

/-- Embedding of the `SilenceInterval` dataclass of
`strategies/silence_ffmpeg.py` (fields `start_sec`, `end_sec`, `duration_sec`). -/
structure SilenceIv where
  start_sec : ℚ
  end_sec : ℚ
  duration_sec : ℚ
deriving DecidableEq, Repr

/-- The merged interval built at `segments_from_silence.py:49-56`:
minimum of starts, maximum of ends, re-derived duration, all `round(·, 3)`. -/
def mergedSil (last iv : SilenceIv) : SilenceIv :=
  { start_sec := round3 (min last.start_sec iv.start_sec)
    end_sec := round3 (max last.end_sec iv.end_sec)
    duration_sec := round3 (max last.end_sec iv.end_sec - min last.start_sec iv.start_sec) }

/-- The merge loop of `normalize_intervals` (`segments_from_silence.py:37-58`).
The Python code keeps a growing list `merged` and only ever reads or replaces
its final element; it is embedded here with the final element (`last`) held
separately from the already-frozen front. An interval whose gap to `last` is
`≤ 0.001` is merged into `last`, otherwise `last` is frozen and the interval
becomes the new `last`. -/
def mergeSilLoop (front : List SilenceIv) (last : SilenceIv) :
    List SilenceIv → List SilenceIv
  | [] => front ++ [last]
  | iv :: rest =>
    if iv.start_sec - last.end_sec ≤ 1 / 1000 then
      mergeSilLoop front (mergedSil last iv) rest
    else
      mergeSilLoop (front ++ [last]) iv rest

/-- The clip-and-filter pass of `normalize_intervals`
(`segments_from_silence.py:60-80`): clamp each interval into `[0, duration]`
(when a duration is available), drop intervals with `end ≤ start`, and round
the surviving fields to 3 decimals. -/
def clipSil (duration_sec : Option ℚ) : List SilenceIv → List SilenceIv
  | [] => []
  | iv :: rest =>
    let s0 := max 0 iv.start_sec
    let s := match duration_sec with
      | some d => min s0 d
      | none => s0
    let e := match duration_sec with
      | some d => min iv.end_sec d
      | none => iv.end_sec
    if e ≤ s then clipSil duration_sec rest
    else { start_sec := round3 s, end_sec := round3 e, duration_sec := round3 (e - s) }
      :: clipSil duration_sec rest

/-- The comparison used by Python's stable `sorted(..., key=lambda x: x.start_sec)`. -/
def silLE (a b : SilenceIv) : Prop := a.start_sec ≤ b.start_sec

instance : DecidableRel silLE := fun a b => by unfold silLE; infer_instance

instance : IsTotal SilenceIv silLE := ⟨fun a b => le_total a.start_sec b.start_sec⟩

instance : IsTrans SilenceIv silLE := ⟨fun _ _ _ hab hbc => le_trans hab hbc⟩

/-- Embedding of `normalize_intervals` (`segments_from_silence.py:11-82`):
stable sort by start, merge overlapping or adjacent (gap `≤ 0.001`) intervals,
clip to `[0, duration]`, drop degenerate intervals, round to 3 decimals.
Python's Timsort is stable, as is `List.insertionSort` with a `≤` comparison. -/
def normalize_intervals (silences : List SilenceIv) (duration_sec : Option ℚ) :
    List SilenceIv :=
  match silences with
  | [] => []
  | _ :: _ =>
    clipSil duration_sec
      (match List.insertionSort silLE silences with
       | [] => []
       | x :: rest => mergeSilLoop [] x rest)

/-- The inner gap collector of `complement_to_speech_segments`
(`segments_from_silence.py:119-124`): one speech segment per positive gap
between consecutive silences. -/
def midGaps : List SilenceIv → List (ℚ × ℚ)
  | a :: b :: rest =>
    (if 0 < b.start_sec - a.end_sec then [(round3 a.end_sec, round3 b.start_sec)] else [])
      ++ midGaps (b :: rest)
  | _ => []

/-- Python's `l[-1]` for the nonempty list `a :: rest` (as `lastOfD a rest`). -/
def lastOfD {α : Type} (a : α) : List α → α
  | [] => a
  | b :: t => lastOfD b t

/-- Embedding of `complement_to_speech_segments` (`segments_from_silence.py:85-134`).
Note that the empty-silences branch returns early, *without* the final
positivity filter, exactly as the source does.  `lastOfD first rest` is
Python's `silences[-1]`. -/
def complement_to_speech_segments (silences : List SilenceIv) (duration_sec : ℚ) :
    List (ℚ × ℚ) :=
  match silences with
  | [] => if 0 < duration_sec then [(round3 0, round3 duration_sec)] else []
  | first :: rest =>
    let lastIv := lastOfD first rest
    let lead := if 0 < first.start_sec then [(round3 0, round3 first.start_sec)] else []
    let tail := if lastIv.end_sec < duration_sec
      then [(round3 lastIv.end_sec, round3 duration_sec)] else []
    (lead ++ midGaps (first :: rest) ++ tail).filter (fun p => p.1 < p.2)

/-- The comparison used by Python's stable `result.sort(key=lambda x: x[0])`
on `(start, end)` pairs. -/
def segLE (a b : ℚ × ℚ) : Prop := a.1 ≤ b.1

instance : DecidableRel segLE := fun a b => by unfold segLE; infer_instance

/-- Embedding of `apply_padding_and_clip` (`segments_from_silence.py:137-169`):
pad each segment by `pad_sec`, clamp into `[0, duration]`, drop collapsed
segments, round to 3 decimals, and sort by start. -/
def apply_padding_and_clip (segments : List (ℚ × ℚ)) (pad_sec duration_sec : ℚ) :
    List (ℚ × ℚ) :=
  List.insertionSort segLE
    (segments.filterMap fun p =>
      let ns := max 0 (p.1 - pad_sec)
      let ne := min duration_sec (p.2 + pad_sec)
      if ns < ne then some (round3 ns, round3 ne) else none)

/-- Embedding of `filter_min_duration` (`segments_from_silence.py:172-194`):
drop (without merging) every segment shorter than `min_seg_sec`. -/
def filter_min_duration (segments : List (ℚ × ℚ)) (min_seg_sec : ℚ) :
    List (ℚ × ℚ) :=
  segments.filterMap fun p =>
    if min_seg_sec ≤ p.2 - p.1 then some (round3 p.1, round3 p.2) else none

/-- The merge loop of `merge_overlaps` (`segments_from_silence.py:217-234`),
embedded like `mergeSilLoop` with the mutable final element held separately.
`thr` is `max overlap_tolerance gap_merge_sec`. -/
def mergeOvLoop (thr : ℚ) (front : List (ℚ × ℚ)) (last : ℚ × ℚ) :
    List (ℚ × ℚ) → List (ℚ × ℚ)
  | [] => front ++ [last]
  | p :: rest =>
    if p.1 - last.2 ≤ thr then
      mergeOvLoop thr front (round3 (min last.1 p.1), round3 (max last.2 p.2)) rest
    else
      mergeOvLoop thr (front ++ [last]) (round3 p.1, round3 p.2) rest

/-- Embedding of `merge_overlaps` (`segments_from_silence.py:197-236`). -/
def merge_overlaps (segments : List (ℚ × ℚ)) (gap_merge_sec overlap_tolerance : ℚ) :
    List (ℚ × ℚ) :=
  match List.insertionSort segLE segments with
  | [] => []
  | p :: rest =>
    mergeOvLoop (max overlap_tolerance gap_merge_sec) [] (round3 p.1, round3 p.2) rest

/-- One pass of the `while changed` loop of `enforce_min_duration_by_merge`
(`segments_from_silence.py:272-333`).  `acc` is `new_result` (the Python code
reads `new_result[-1]` as the left neighbour and `result[i+1]` as the right
neighbour), `changed` is the change flag, and the returned Boolean is the
flag's final value.  A segment of sufficient duration is kept; a short one is
merged into the closer neighbour (ties to the right), into the only
neighbour, or dropped when isolated. -/
def minPassLoop (min_seg_sec : ℚ) (acc : List (ℚ × ℚ)) (changed : Bool) :
    List (ℚ × ℚ) → List (ℚ × ℚ) × Bool
  | [] => (acc, changed)
  | p :: rest =>
    if min_seg_sec ≤ p.2 - p.1 then
      minPassLoop min_seg_sec (acc ++ [(round3 p.1, round3 p.2)]) changed rest
    else
      match acc.getLast?, rest with
      | some left, right :: rest2 =>
        if p.1 - left.2 < right.1 - p.2 then
          minPassLoop min_seg_sec
            (acc.dropLast ++ [(round3 left.1, round3 (max left.2 p.2))]) true
            (right :: rest2)
        else
          minPassLoop min_seg_sec
            (acc ++ [(round3 (min p.1 right.1), round3 (max p.2 right.2))]) true rest2
      | some left, [] =>
        (acc.dropLast ++ [(round3 left.1, round3 (max left.2 p.2))], true)
      | none, right :: rest2 =>
        minPassLoop min_seg_sec
          (acc ++ [(round3 (min p.1 right.1), round3 (max p.2 right.2))]) true rest2
      | none, [] => (acc, changed)
termination_by l => l.length
decreasing_by
  all_goals simp
  all_goals omega

/-- The `while changed` driver of `enforce_min_duration_by_merge`.  Each pass
that reports a change strictly shortens the list (proved below), so the
Python loop terminates and `length + 1` units of fuel always reach the
fixpoint. -/
def minLoop (min_seg_sec : ℚ) : ℕ → List (ℚ × ℚ) → List (ℚ × ℚ)
  | 0, l => l
  | fuel + 1, l =>
    match minPassLoop min_seg_sec [] false l with
    | (l2, true) => minLoop min_seg_sec fuel l2
    | (l2, false) => l2

/-- Embedding of `enforce_min_duration_by_merge` (`segments_from_silence.py:239-336`).
The `max_seg_sec` parameter is accepted and never used, as in the source. -/
def enforce_min_duration_by_merge (segments : List (ℚ × ℚ)) (min_seg_sec : ℚ)
    (max_seg_sec : Option ℚ := none) : List (ℚ × ℚ) :=
  match segments with
  | [] => []
  | _ :: _ =>
    minLoop min_seg_sec (segments.length + 1) (List.insertionSort segLE segments)

/-- The piece generator of the `equal` split strategy
(`segments_from_silence.py:379-391`): `k` pieces of length `seglen`, with the
final piece's end forced to the original end, dropping empty pieces. -/
def splitPieces (s e seglen : ℚ) (k : ℕ) : List (ℚ × ℚ) :=
  (List.range k).filterMap fun i =>
    let ps := s + i * seglen
    let pe := if i = k - 1 then e else s + (i + 1) * seglen
    if ps < pe then some (round3 ps, round3 pe) else none

/-- Embedding of `enforce_max_duration_by_split` (`segments_from_silence.py:339-403`).
The `ValueError` raised for `max_seg_sec < min_seg_sec` becomes `Except.error`;
note the empty-input early return sits *before* that parameter check, as in
the source.  `k` is the Python expression
`int((duration + max_seg_sec - 1e-6) // max_seg_sec) + 1` (the call sites
guarantee `max_seg_sec > 0`, so float floor-division is `Int.floor` of the
quotient). -/
def enforce_max_duration_by_split (segments : List (ℚ × ℚ))
    (max_seg_sec min_seg_sec : ℚ) (split_strategy : String) :
    Except String (List (ℚ × ℚ)) :=
  match segments with
  | [] => .ok []
  | _ :: _ =>
    if max_seg_sec < min_seg_sec then
      .error "max_seg_sec must be >= min_seg_sec"
    else
    let pieces := segments.flatMap fun p =>
      let dur := p.2 - p.1
      if dur ≤ max_seg_sec then [(round3 p.1, round3 p.2)]
      else if split_strategy = "equal" then
        let k0 : ℤ := ⌊(dur + max_seg_sec - 1 / 1000000) / max_seg_sec⌋ + 1
        let k : ℕ := (max 1 k0).toNat
        splitPieces p.1 p.2 (dur / k) k
      else [(round3 p.1, round3 p.2)]
    let merged := merge_overlaps pieces 0 (1 / 1000)
    .ok (enforce_min_duration_by_merge merged min_seg_sec (some max_seg_sec))

/-- Embedding of the shared postprocess chain
(`pipeline/planner.py:1032-1059`, `_postprocess_segments`, the same sequence
as `_run_emit_segments` lines 369-394): pad and clip, merge overlaps with
tolerance `10⁻³`, enforce the minimum duration by merging, enforce the
maximum duration by splitting, then sort and round. -/
def postprocess_segments (speech : List (ℚ × ℚ))
    (duration_sec pad_sec min_seg_sec max_seg_sec : ℚ) (split_strategy : String) :
    Except String (List (ℚ × ℚ)) :=
  let padded := apply_padding_and_clip speech pad_sec duration_sec
  let merged := merge_overlaps padded 0 (1 / 1000)
  let merged2 := enforce_min_duration_by_merge merged min_seg_sec (some max_seg_sec)
  match enforce_max_duration_by_split merged2 max_seg_sec min_seg_sec split_strategy with
  | .error e => .error e
  | .ok fin =>
    .ok ((List.insertionSort segLE fin).map fun p => (round3 p.1, round3 p.2))

/-! ## Auto-strategy candidate loop (`pipeline/planner.py:649-750`) -/

/-- Output of `strategy.analyze` as consumed by the auto-strategy loop:
the strategy name, the audio duration, and the raw speech intervals
(`strategies/base.py`, `AnalysisResult`; artifact paths, stats and warnings
do not influence the candidate gate and are not modelled). -/
structure AnalysisResult where
  strategy : String
  duration_sec : ℚ
  speech_segments_raw : List (ℚ × ℚ)
deriving DecidableEq, Repr

/-- Outcome of running one candidate's `analyze`: Python's `ImportError`
(missing dependency) and every other exception are the two caught classes
(`planner.py:724-734`). -/
inductive AnalyzeFailure
  | importFailure (msg : String)
  | otherFailure (msg : String)
deriving DecidableEq, Repr

/-- The postprocess-relevant parameters read from `params` in
`_run_auto_strategy_emit_segments` and `_postprocess_segments`. -/
structure AutoParams where
  min_segments : ℕ
  min_speech_total_sec : ℚ
  max_speech_ratio : ℚ
  pad_sec : ℚ
  min_seg_sec : ℚ
  max_seg_sec : ℚ
  split_strategy : String
deriving DecidableEq, Repr

/-- One row of the `attempts` list recorded in the per-job report
(`planner.py:669-674`; the free-form `stats`/`error` payloads are not
modelled). -/
structure Attempt where
  strategy : String
  ok : Bool
  reason : Option String
deriving DecidableEq, Repr

/-- `sum(e - s for s, e in final_segments)` (`planner.py:689`). -/
def speechTotal (l : List (ℚ × ℚ)) : ℚ := (l.map fun p => p.2 - p.1).sum

/-- The candidate loop of `_run_auto_strategy_emit_segments`
(`planner.py:667-734`): each candidate is a strategy name paired with the
outcome of its `analyze` call; a successful analysis is postprocessed and
run through the quality gate (`too_few_segments`, `too_short_speech`,
`full_span`, checked in that order); the first candidate that passes is
chosen and the loop breaks.  Returns the recorded attempts and the chosen
strategy with its analysis result. -/
def autoTry (P : AutoParams) :
    List (String × Except AnalyzeFailure AnalysisResult) →
      List Attempt × Option (String × AnalysisResult)
  | [] => ([], none)
  | (name, .error (.importFailure _)) :: rest =>
    let r := autoTry P rest
    (⟨name, false, some "missing_dependency"⟩ :: r.1, r.2)
  | (name, .error (.otherFailure _)) :: rest =>
    let r := autoTry P rest
    (⟨name, false, some "error"⟩ :: r.1, r.2)
  | (name, .ok ar) :: rest =>
    match postprocess_segments ar.speech_segments_raw ar.duration_sec P.pad_sec
        P.min_seg_sec P.max_seg_sec P.split_strategy with
    | .error _ =>
      let r := autoTry P rest
      (⟨name, false, some "error"⟩ :: r.1, r.2)
    | .ok finalSegs =>
      let total := speechTotal finalSegs
      let frac := if 0 < ar.duration_sec then total / ar.duration_sec else 0
      if finalSegs.length < P.min_segments then
        let r := autoTry P rest
        (⟨name, false, some "too_few_segments"⟩ :: r.1, r.2)
      else if total < P.min_speech_total_sec then
        let r := autoTry P rest
        (⟨name, false, some "too_short_speech"⟩ :: r.1, r.2)
      else if P.max_speech_ratio ≤ frac then
        let r := autoTry P rest
        (⟨name, false, some "full_span"⟩ :: r.1, r.2)
      else
        ([⟨name, true, none⟩], some (name, ar))

/-- `_run_auto_strategy_emit_segments` returns `False` (the job fails, with
the attempts written to the report) exactly when no candidate was chosen
(`planner.py:737-750`). -/
def autoStrategySucceeds (P : AutoParams)
    (cands : List (String × Except AnalyzeFailure AnalysisResult)) : Bool :=
  (autoTry P cands).2.isSome

/-! ## `SegmentRecord` construction (`io/segments.py:12-54`, `planner.py:522-539`) -/

/-- The fields of the `SegmentRecord` dataclass, in declaration order
(`io/segments.py:12-27`); `asdict` in `to_dict` serializes exactly these
keys. -/
def segmentRecordFields : List String :=
  ["id", "start_sec", "end_sec", "duration_sec", "source_audio",
   "pre_silence_sec", "post_silence_sec", "is_speech", "strategy",
   "rms", "energy_db", "notes"]

/-- The keyword arguments passed to `SegmentRecord(...)` by
`SegmentPlanner._run_emit_segments` (`planner.py:522-538`; the auto-strategy
emitter at lines 899-915 passes the same keywords). -/
def plannerEmitKwargs : List String :=
  ["id", "start_sec", "end_sec", "duration_sec", "source_audio",
   "pre_silence_sec", "post_silence_sec", "is_speech", "strategy",
   "rms", "energy_db", "notes", "flags", "source", "quality"]

/-- A Python dataclass call accepts a set of keyword arguments iff every
keyword names a declared field; an unexpected keyword raises `TypeError`. -/
def dataclassCallAccepted (fields kwargs : List String) : Bool :=
  kwargs.all fun k => fields.contains k

/-- The canonical flag order stated by the spec
(`split_from_long, merged_short, edge_clipped, low_energy`). -/
def canonicalFlagOrder : List String :=
  ["split_from_long", "merged_short", "edge_clipped", "low_energy"]

/-- Embedding of `compute_flags_for_segment`
(`pipeline/segment_flags.py:54-89`): history flags (the planner extends
split flags before merge flags), then `edge_clipped`, then `low_energy`. -/
def compute_flags_for_segment (segment : ℚ × ℚ) (duration_sec : ℚ)
    (rms : Option ℚ) (low_energy_rms_threshold : ℚ)
    (history_flags : List String) : List String :=
  history_flags
    ++ (if |segment.1 - 0| < 1/1000 ∨ |segment.2 - duration_sec| < 1/1000
        then ["edge_clipped"] else [])
    ++ (match rms with
        | some r => if r < low_energy_rms_threshold then ["low_energy"] else []
        | none => [])

/-! ## Validator (`validate.py:47-235`) -/

/-- A parsed, well-typed line of `segments.jsonl` as read by
`validate_segments_jsonl`: the five required fields plus the optional
fields the validator inspects.  (A line whose dynamic type checks fail is
outside this model; the claims under study concern well-typed files.) -/
structure JsonSeg where
  id : String
  start_sec : ℚ
  end_sec : ℚ
  duration_sec : ℚ
  source_audio : String
  is_speech : Option Bool := none
  strategy : Option String := none
  pre_silence_sec : Option ℚ := none
  post_silence_sec : Option ℚ := none
  rms : Option ℚ := none
  energy_db : Option ℚ := none
deriving DecidableEq, Repr

/-- The validator's diagnostic messages, one constructor per `add_error` /
`add_warning` site in `validate_segments_jsonl` (`validate.py:84-226`),
tagged with the 1-based line number (and field name where the source
interpolates one). -/
inductive VMsg
  | emptyFile
  | startNegative (line : ℕ)
  | endNotAfterStart (line : ℕ)
  | durationMismatch (line : ℕ)
  | notRound3 (line : ℕ) (fieldName : String)
  | badIdFormat (line : ℕ)
  | idNotContiguous (line : ℕ)
  | firstIdNotOne (line : ℕ)
  | startOrderViolation (line : ℕ)
  | overlapViolation (line : ℕ)
  | preSilenceNegative (line : ℕ)
  | postSilenceNegative (line : ℕ)
  | rmsOutOfRange (line : ℕ)
deriving DecidableEq, Repr

/-- Result accumulator, as in `ValidationResult` (`validate.py:17-44`):
`ok` flips to false on the first error. -/
structure VState where
  ok : Bool
  warnings : List VMsg
  errors : List VMsg
  prev_start : Option ℚ
  prev_id : Option ℕ
deriving DecidableEq, Repr

def VState.warn (st : VState) (m : VMsg) : VState :=
  { st with warnings := st.warnings ++ [m] }

def VState.err (st : VState) (m : VMsg) : VState :=
  { st with errors := st.errors ++ [m], ok := false }

def VState.addIf (st : VState) (cond : Bool) (strict : Bool) (m : VMsg) : VState :=
  if cond then (if strict then st.err m else st.warn m) else st

def VState.errIf (st : VState) (cond : Bool) (m : VMsg) : VState :=
  if cond then st.err m else st

def VState.warnIf (st : VState) (cond : Bool) (m : VMsg) : VState :=
  if cond then st.warn m else st

/-- Decimal value of a digit string, as `int(...)` reads the regex group. -/
def digitsToNat (ds : List Char) : ℕ :=
  ds.foldl (fun acc c => 10 * acc + (c.toNat - '0'.toNat)) 0

/-- `re.match(r"^seg_(\d{6})$", id)`: the numeric payload of a well-formed
segment id (the literal prefix `seg_` followed by exactly six digits). -/
def segIdNum (s : String) : Option ℕ :=
  match s.toList with
  | 's' :: 'e' :: 'g' :: '_' :: ds =>
    if ds.length = 6 ∧ ds.all Char.isDigit then some (digitsToNat ds) else none
  | _ => none

/-- The round-3 approximation check of `validate.py:139-148` for one field
value: warn when `|1000·x − round(1000·x)| > 10⁻⁶`. -/
def round3Suspect (x : ℚ) : Bool := 1/1000000 < |1000 * x - round (1000 * x)|

/-- Validation of one (well-typed) record, embedding the body of the main
loop of `validate_segments_jsonl` (`validate.py:93-226`).  `i` is the
0-based position (the source's `line_num` is `i + 1` for a file with one
record per line).  After any record has produced an error, subsequent
iterations skip all checks (`if not result.ok: continue`).  For the
non-overlap check the source reads
`segments[segments.index((line_num, seg)) - 1]`, which for the *first*
record wraps around to the *last* record of the file. -/
def validateStep (segs : List JsonSeg) (strict : Bool) (st : VState) (i : ℕ)
    (seg : JsonSeg) : VState :=
  if st.ok = false then st
  else
    let line := i + 1
    let st := st.errIf (decide (seg.start_sec < 0)) (.startNegative line)
    let st := st.errIf (decide (seg.end_sec ≤ seg.start_sec)) (.endNotAfterStart line)
    let st := st.errIf
      (decide (2/1000 < |seg.duration_sec - (seg.end_sec - seg.start_sec)|))
      (.durationMismatch line)
    let st := st.warnIf (round3Suspect seg.start_sec) (.notRound3 line "start_sec")
    let st := st.warnIf (round3Suspect seg.end_sec) (.notRound3 line "end_sec")
    let st := st.warnIf (round3Suspect seg.duration_sec) (.notRound3 line "duration_sec")
    let st :=
      match segIdNum seg.id with
      | none => st.err (.badIdFormat line)
      | some idn =>
        let st :=
          match st.prev_id with
          | some p => st.errIf (decide (idn ≠ p + 1)) (.idNotContiguous line)
          | none => st.errIf (decide (idn ≠ 1)) (.firstIdNotOne line)
        { st with prev_id := some idn }
    let st :=
      match st.prev_start with
      | some ps => st.errIf (decide (seg.start_sec < ps - 1/1000000)) (.startOrderViolation line)
      | none => st
    let st := { st with prev_start := some seg.start_sec }
    let st :=
      if 1 < segs.length then
        let prevSeg := if i = 0 then segs.getLastD seg else segs.getD (i - 1) seg
        st.addIf (decide (1/1000 < prevSeg.end_sec - seg.start_sec)) strict
          (.overlapViolation line)
      else st
    let st :=
      match seg.pre_silence_sec with
      | some v => st.warnIf (decide (v < 0)) (.preSilenceNegative line)
      | none => st
    let st :=
      match seg.post_silence_sec with
      | some v => st.warnIf (decide (v < 0)) (.postSilenceNegative line)
      | none => st
    let st :=
      match seg.rms with
      | some v => st.warnIf (decide (¬(0 ≤ v ∧ v ≤ 1))) (.rmsOutOfRange line)
      | none => st
    st

/-- Embedding of `validate_segments_jsonl` (`validate.py:47-235`) on a
parsed, well-typed record list.  An empty file only gets the empty-file
warning. -/
def validate_segments_jsonl (segs : List JsonSeg) (strict : Bool) : VState :=
  match segs with
  | [] =>
    { ok := true, warnings := [VMsg.emptyFile], errors := [],
      prev_start := none, prev_id := none }
  | _ :: _ =>
    (segs.enum.foldl (fun st pi => validateStep segs strict st pi.1 pi.2)
      { ok := true, warnings := [], errors := [], prev_start := none, prev_id := none })

/-- `prev.end − curr.start ≤ 10⁻³` for every pair of *consecutive* records:
the non-overlap condition as the spec states it. -/
def consecutiveOverlapOk (segs : List JsonSeg) : Bool :=
  (segs.zip segs.tail).all fun ab => decide (ab.1.end_sec - ab.2.start_sec ≤ 1/1000)

/-! ## RMS feature computation (`audio/features.py:13-100`) -/

/-- Python `int(x)` on a float: truncation toward zero. -/
def pyTrunc (q : ℚ) : ℤ := if 0 ≤ q then ⌊q⌋ else -⌊-q⌋

/-- The data `compute_rms` reads from the WAV container through the `wave`
module: header fields and the full interleaved PCM16 sample stream (the
byte payload decoded by `array.array("h", frames)`). -/
structure WavFile where
  sampleRate : ℕ
  sampleWidth : ℕ
  nChannels : ℕ
  nframes : ℕ
  samples : List ℤ
deriving DecidableEq, Repr

/-- The multi-channel averaging loop of `compute_rms`
(`audio/features.py:75-82`): for each complete group of `n` interleaved
samples, `int(sum / n)`; a trailing incomplete group is ignored
(`n_samples = len // n`). -/
def avgChunks (n : ℕ) (l : List ℤ) : List ℤ :=
  if h : 0 < n ∧ n ≤ l.length then
    pyTrunc (((l.take n).sum : ℚ) / n) :: avgChunks n (l.drop n)
  else []
termination_by l.length
decreasing_by
  have : l.length - n < l.length := by omega
  simpa using this

/-- Embedding of `compute_rms` (`audio/features.py:13-100`).  A `none` wav
argument stands for a file the `wave` module fails to open (or any other
I/O error); every exception branch of the source is a caught `return None`.
`wf.setpos` raises (caught) when the position is negative or beyond
`nframes`; `readframes` returns the available frames from that position,
and an empty read returns `None`.  The final value is
`sqrt(mean(x²)) / 32768`, an exact real here. -/
noncomputable def compute_rms (wav : Option WavFile) (start_sec end_sec : ℚ) :
    Option ℝ :=
  if start_sec < 0 ∨ end_sec ≤ start_sec then none
  else
    match wav with
    | none => none
    | some w =>
      if w.sampleWidth ≠ 2 then none
      else
        let startFrame := pyTrunc (start_sec * w.sampleRate)
        let endFrame := pyTrunc (end_sec * w.sampleRate)
        if endFrame - startFrame ≤ 0 then none
        else if startFrame < 0 ∨ (w.nframes : ℤ) < startFrame then none
        else
          let nFr := (endFrame - startFrame).toNat
          let data := (w.samples.drop (startFrame.toNat * w.nChannels)).take
            (nFr * w.nChannels)
          if data = [] then none
          else
            let audio := if 1 < w.nChannels then avgChunks w.nChannels data else data
            let sumSq : ℚ := (audio.map fun x : ℤ => ((x : ℚ)) ^ 2).sum
            let meanSq : ℚ := if 0 < audio.length then sumSq / audio.length else 0
            some (Real.sqrt (meanSq : ℝ) / 32768)

/-- 16-bit PCM sample range, as guaranteed by `array.array("h", ...)`. -/
def Int16Range (x : ℤ) : Prop := -32768 ≤ x ∧ x ≤ 32767

/-! ## Spec-side definitions and hypothesis predicates -/

/-- The inter-silence gaps as the spec's words describe them: one segment
`[silences[i].end, silences[i+1].start)` for *each* consecutive pair.
(Spec-side definition, for comparison with `midGaps`.) -/
def specMidGaps : List SilenceIv → List (ℚ × ℚ)
  | a :: b :: rest => (a.end_sec, b.start_sec) :: specMidGaps (b :: rest)
  | _ => []

/-- The complement as claim C6 words it: a prefix gap `[0, silences[0].start)`
if nonzero, each inter-silence gap, and a suffix gap
`[silences[-1].end, duration)` if nonzero; `[(0, duration)]` for the empty
list whenever `duration > 0`.  (Spec-side definition, written from the
claim's words, to be compared with `complement_to_speech_segments`.) -/
def complementSpecGaps (silences : List SilenceIv) (duration_sec : ℚ) :
    List (ℚ × ℚ) :=
  match silences with
  | [] => if 0 < duration_sec then [(0, duration_sec)] else []
  | first :: rest =>
    (if first.start_sec ≠ 0 then [(0, first.start_sec)] else [])
      ++ specMidGaps (first :: rest)
      ++ (if (lastOfD first rest).end_sec ≠ duration_sec
          then [((lastOfD first rest).end_sec, duration_sec)] else [])

/-- A normalized, in-range silence list for duration `d` (the input contract
of `complement_to_speech_segments`): round-3 values, intervals inside
`[0, d]` with positive length, strictly separated, with `d` itself round-3. -/
def NormalizedIn (silences : List SilenceIv) (d : ℚ) : Prop :=
  OnGrid d ∧
  (∀ iv ∈ silences,
    OnGrid iv.start_sec ∧ OnGrid iv.end_sec ∧
    0 ≤ iv.start_sec ∧ iv.start_sec < iv.end_sec ∧ iv.end_sec ≤ d) ∧
  List.Chain' (fun a b => a.end_sec < b.start_sec) silences

/-- What `parse_silencedetect_output` guarantees of the silence list handed
to `normalize_intervals` by `SilenceStrategy.analyze`
(`silence_ffmpeg.py:179-204`): every interval is round-3, starts at or after
zero and has positive length. -/
def ParsedOk (silences : List SilenceIv) : Prop :=
  ∀ iv ∈ silences,
    OnGrid iv.start_sec ∧ OnGrid iv.end_sec ∧
    0 ≤ iv.start_sec ∧ iv.start_sec < iv.end_sec

/-- The per-interval guarantee of `parse_silencedetect_output`
(`silence_ffmpeg.py:179-204`): round-3 endpoints, a nonnegative start and a
positive length.  `ParsedOk` is exactly `∀ iv ∈ l, GoodIv iv`. -/
def GoodIv (iv : SilenceIv) : Prop :=
  OnGrid iv.start_sec ∧ OnGrid iv.end_sec ∧
  0 ≤ iv.start_sec ∧ iv.start_sec < iv.end_sec

/-- Separation of at least `2·10⁻³` between two silence intervals — what the
merge loop's `> 0.001` freezing test leaves between round-3 neighbours. -/
def SilGap (a b : SilenceIv) : Prop := a.end_sec + 2/1000 ≤ b.start_sec

/-- Invariants of `normalize_intervals parsed (some d)` used for the
round-trip argument: round-3 values in `[0, round3 d]`, the
`duration_sec` field consistent, pairwise gaps of at least `2·10⁻³`, and any
degenerate (`start = end`) interval pinned at `round3 d` with
`round3 d < d`. -/
def NormOut (L : List SilenceIv) (d : ℚ) : Prop :=
  (∀ iv ∈ L,
    OnGrid iv.start_sec ∧ OnGrid iv.end_sec ∧
    0 ≤ iv.start_sec ∧ iv.start_sec ≤ iv.end_sec ∧ iv.end_sec ≤ round3 d ∧
    iv.duration_sec = iv.end_sec - iv.start_sec ∧
    (iv.start_sec < iv.end_sec ∨
      (iv.start_sec = iv.end_sec ∧ iv.end_sec = round3 d ∧ round3 d < d))) ∧
  List.Pairwise SilGap L

/-- Round-3 segment pair. -/
def GridSeg (p : ℚ × ℚ) : Prop := OnGrid p.1 ∧ OnGrid p.2

/-- First record of the two-record `segments.jsonl` that the repository's
own `test_validate_ok_segments_jsonl` writes: `(0.0, 1.5)`, duration 1.5. -/
def okRecord1 : JsonSeg :=
  { id := "seg_000001", start_sec := 0, end_sec := 3/2, duration_sec := 3/2,
    source_audio := "audio.wav", is_speech := some true, strategy := some "silence",
    pre_silence_sec := some 0, post_silence_sec := some (1/5) }

/-- Second record of that file: `(1.7, 3.2)`, duration 1.5 (a 0.2 s gap to
the first record, so every consecutive pair is far from overlapping). -/
def okRecord2 : JsonSeg :=
  { id := "seg_000002", start_sec := 17/10, end_sec := 16/5, duration_sec := 3/2,
    source_audio := "audio.wav", is_speech := some true, strategy := some "silence",
    pre_silence_sec := some (1/5), post_silence_sec := some 0 }

/-! ## Round-3 arithmetic toolbox -/

theorem round3_intCast (n : ℤ) : round3 ((n : ℚ) / 1000) = (n : ℚ) / 1000 := by
  unfold round3
  rw [show (1000 : ℚ) * ((n : ℚ) / 1000) = (n : ℚ) by ring, round_intCast]

theorem onGrid_iff {q : ℚ} : OnGrid q ↔ ∃ n : ℤ, q = (n : ℚ) / 1000 := by
  constructor
  · intro h
    exact ⟨round (1000 * q), h.symm⟩
  · rintro ⟨n, rfl⟩
    exact round3_intCast n

theorem onGrid_round3 (q : ℚ) : OnGrid (round3 q) :=
  onGrid_iff.mpr ⟨round (1000 * q), rfl⟩

theorem round3_mono {p q : ℚ} (h : p ≤ q) : round3 p ≤ round3 q := by
  unfold round3
  have hr : round (1000 * p) ≤ round (1000 * q) := by
    rw [round_eq, round_eq]
    exact Int.floor_mono (by linarith)
  have : (round (1000 * p) : ℚ) ≤ (round (1000 * q) : ℚ) := by exact_mod_cast hr
  linarith

theorem abs_round3_sub (q : ℚ) : |round3 q - q| ≤ 1/2000 := by
  have h := abs_sub_round (1000 * q)
  rw [abs_sub_comm] at h
  have h2 : round3 q - q = ((round (1000 * q) : ℚ) - 1000 * q) / 1000 := by
    unfold round3; ring
  rw [h2, abs_div]
  rw [show |(1000 : ℚ)| = 1000 by norm_num]
  linarith

theorem grid_gap {a b : ℚ} (ha : OnGrid a) (hb : OnGrid b) (h : a < b) :
    a + 1/1000 ≤ b := by
  rw [onGrid_iff] at ha hb
  obtain ⟨m, rfl⟩ := ha
  obtain ⟨n, rfl⟩ := hb
  have hmn : m < n := by
    by_contra hc
    push_neg at hc
    have : (n : ℚ) ≤ (m : ℚ) := by exact_mod_cast hc
    have : (n : ℚ) / 1000 ≤ (m : ℚ) / 1000 := by linarith
    linarith
  have hmn1 : m + 1 ≤ n := hmn
  have : ((m : ℚ) + 1) ≤ (n : ℚ) := by exact_mod_cast hmn1
  linarith

theorem onGrid_zero : OnGrid (0 : ℚ) :=
  onGrid_iff.mpr ⟨0, by norm_num⟩

theorem round3_zero : round3 (0 : ℚ) = 0 := onGrid_zero

theorem onGrid_min {a b : ℚ} (ha : OnGrid a) (hb : OnGrid b) : OnGrid (min a b) := by
  rcases le_total a b with h | h
  · rwa [min_eq_left h]
  · rwa [min_eq_right h]

theorem onGrid_max {a b : ℚ} (ha : OnGrid a) (hb : OnGrid b) : OnGrid (max a b) := by
  rcases le_total a b with h | h
  · rwa [max_eq_right h]
  · rwa [max_eq_left h]

theorem onGrid_sub {a b : ℚ} (ha : OnGrid a) (hb : OnGrid b) : OnGrid (a - b) := by
  rw [onGrid_iff] at ha hb ⊢
  obtain ⟨m, rfl⟩ := ha
  obtain ⟨n, rfl⟩ := hb
  exact ⟨m - n, by push_cast; ring⟩

theorem round3_le_of_le_grid {q b : ℚ} (hb : OnGrid b) (h : q ≤ b) : round3 q ≤ b := by
  have := round3_mono h
  rwa [hb] at this

theorem le_round3_of_grid_le {a q : ℚ} (ha : OnGrid a) (h : a ≤ q) : a ≤ round3 q := by
  have := round3_mono h
  rwa [ha] at this

/-! ## Claim theorems -/

/-- C1: the spec requires every written record to carry a canonically
ordered `flags` list, a `source` record and an optional `quality` record,
and the repository's own tests construct `SegmentRecord(..., flags=...)`
expecting canonical-order serialization — but the `SegmentRecord` dataclass
declares no `flags`, `source` or `quality` field, so the planner's
constructor call (`planner.py:522-538`) uses unexpected keywords and raises
`TypeError`: the code contradicts its tests and the spec.  Meanwhile the
flag list the planner computes does follow the canonical order
(split flags, then merge flags, then `edge_clipped`, then `low_energy`). -/
theorem c1_segment_record_missing_flag_fields :
    dataclassCallAccepted segmentRecordFields plannerEmitKwargs = false ∧
    "flags" ∉ segmentRecordFields ∧
    "source" ∉ segmentRecordFields ∧
    "quality" ∉ segmentRecordFields ∧
    plannerEmitKwargs.filter (fun k => ¬ segmentRecordFields.contains k)
      = ["flags", "source", "quality"] := by
  refine ⟨by decide, by decide, by decide, by decide, by decide⟩

/-- C2: the claim (and the repository's `test_max_duration_split_equal`)
expects `enforce_max_duration_by_split [(0,10)] 3 0.5 "equal"` to return
four segments of length 2.5, but the code returns the single segment
`(0,10)` unchanged: the `k` formula
`int((duration + max - 1e-6) // max) + 1` yields 5 (not `⌈10/3⌉ = 4`), and
the subsequent `merge_overlaps` re-run with tolerance `10⁻³` re-merges the
adjacent equal-length pieces back into one segment, undoing the split. -/
theorem c2_enforce_max_split_undone :
    enforce_max_duration_by_split [(0, 10)] 3 (1/2) "equal" = .ok [(0, 10)] ∧
    enforce_max_duration_by_split [(0, 10)] 3 (1/2) "equal"
      ≠ .ok [(0, 5/2), (5/2, 5), (5, 15/2), (15/2, 10)] := by
  have h : enforce_max_duration_by_split [(0, 10)] 3 (1/2) "equal" = .ok [(0, 10)] := by
    norm_num [enforce_max_duration_by_split, splitPieces, List.flatMap, List.range,
      List.range.loop, List.filterMap]
    simp only [Int.reduceToNat]
    norm_num [merge_overlaps, mergeOvLoop, enforce_min_duration_by_merge, minLoop,
      minPassLoop, List.insertionSort, List.orderedInsert, segLE, round3, round_eq]
  refine ⟨h, ?_⟩
  rw [h]
  intro hc
  simp only [Except.ok.injEq, List.cons.injEq] at hc
  exact absurd hc.2 (by simp)

/-- C3 (counterexample): in the postprocess chain with `pad = 0.2`,
`duration = 10`, `min_seg_sec = 1` (and the default `max_seg_sec = 25`),
the input `[(1.0, 1.4), (3.0, 5.0)]` does *not* end as `[(2.8, 5.2)]` —
the minimum-duration step of the chain merges rather than drops. -/
theorem c3_chain_does_not_drop :
    postprocess_segments [(1, 7/5), (3, 5)] 10 (1/5) 1 25 "equal"
      ≠ .ok [(14/5, 26/5)] := by
  have h : postprocess_segments [(1, 7/5), (3, 5)] 10 (1/5) 1 25 "equal"
      = .ok [(4/5, 26/5)] := by
    norm_num [postprocess_segments, apply_padding_and_clip, merge_overlaps, mergeOvLoop,
      enforce_min_duration_by_merge, minLoop, minPassLoop,
      enforce_max_duration_by_split, List.insertionSort, List.orderedInsert, segLE,
      round3, round_eq, List.flatMap, List.filterMap]
  rw [h]
  intro hc
  simp only [Except.ok.injEq, List.cons.injEq, Prod.mk.injEq] at hc
  exact absurd hc.1.1 (by norm_num)

/-- C3 (amended): padding does produce `[(0.8, 1.6), (2.8, 5.2)]`, but in
the postprocess chain the short first padded segment (length 0.8) is merged
with its right neighbour by `enforce_min_duration_by_merge`, giving the
final result `[(0.8, 5.2)]`; the drop-to-`[(2.8, 5.2)]` behaviour belongs to
the standalone `filter_min_duration` (the spec's "pad-then-min filter"
scenario), which the chain does not use. -/
theorem c3_pad_then_min_amended :
    apply_padding_and_clip [(1, 7/5), (3, 5)] (1/5) 10 = [(4/5, 8/5), (14/5, 26/5)] ∧
    postprocess_segments [(1, 7/5), (3, 5)] 10 (1/5) 1 25 "equal"
      = .ok [(4/5, 26/5)] ∧
    filter_min_duration [(4/5, 8/5), (14/5, 26/5)] 1 = [(14/5, 26/5)] := by
  refine ⟨?_, ?_, ?_⟩
  · norm_num [apply_padding_and_clip, List.filterMap, List.insertionSort,
      List.orderedInsert, segLE, round3, round_eq]
  · norm_num [postprocess_segments, apply_padding_and_clip, merge_overlaps, mergeOvLoop,
      enforce_min_duration_by_merge, minLoop, minPassLoop,
      enforce_max_duration_by_split, List.insertionSort, List.orderedInsert, segLE,
      round3, round_eq, List.flatMap, List.filterMap]
  · norm_num [filter_min_duration, List.filterMap, round3, round_eq]

/-- C9 (counterexample): with the empty segment list and
`max_seg_sec = 1 < 2 = min_seg_sec`, `enforce_max_duration_by_split`
returns `[]` successfully instead of failing — the empty-input early return
precedes the parameter check. -/
theorem c9_empty_list_no_error :
    enforce_max_duration_by_split [] 1 2 "equal" = .ok [] ∧ (1 : ℚ) < 2 := by
  exact ⟨rfl, by norm_num⟩

/-- C9 (amended): for every *nonempty* segment list, calling
`enforce_max_duration_by_split` with `max_seg_sec < min_seg_sec` fails with
the invalid-parameter error rather than returning a result. -/
theorem c9_invalid_params_error_nonempty (segments : List (ℚ × ℚ))
    (hne : segments ≠ []) (max_seg_sec min_seg_sec : ℚ)
    (hlt : max_seg_sec < min_seg_sec) (split_strategy : String) :
    enforce_max_duration_by_split segments max_seg_sec min_seg_sec split_strategy
      = .error "max_seg_sec must be >= min_seg_sec" := by
  match segments with
  | [] => exact absurd rfl hne
  | p :: rest =>
    unfold enforce_max_duration_by_split
    rw [if_pos hlt]

/-- C9 witness: the amended theorem applied at `[(0, 10)]`, `max = 1`,
`min = 2`. -/
theorem c9_invalid_params_error_nonempty_witness :
    enforce_max_duration_by_split [(0, 10)] 1 2 "equal"
      = .error "max_seg_sec must be >= min_seg_sec" :=
  c9_invalid_params_error_nonempty [(0, 10)] (by simp) 1 2 (by norm_num) "equal"

/-- C8 (counterexample): for a silence-strategy run with no detected
silences and true duration `1/2500 = 0.0004` s, the strategy's original
`speech_segments_raw` is `[(0.0, 0.0)]` (the empty-silences branch of the
complement skips the positivity filter), while re-normalizing the stored
(empty) silence list against the stored round-3 duration `0.0` and
re-computing the complement yields `[]`: the round trip is not bitwise. -/
theorem c8_roundtrip_fails_tiny_duration :
    complement_to_speech_segments
        (normalize_intervals (normalize_intervals [] (some (1/2500)))
          (some (round3 (1/2500))))
        (round3 (1/2500))
      ≠ complement_to_speech_segments (normalize_intervals [] (some (1/2500)))
        (1/2500) := by
  have hr : round3 (1/2500 : ℚ) = 0 := by norm_num [round3, round_eq]
  have hL : complement_to_speech_segments
      (normalize_intervals (normalize_intervals [] (some (1/2500)))
        (some (round3 (1/2500)))) (round3 (1/2500)) = [] := by
    rw [hr]
    norm_num [normalize_intervals, complement_to_speech_segments]
  have hR : complement_to_speech_segments (normalize_intervals [] (some (1/2500)))
      (1/2500) = [(0, 0)] := by
    norm_num [normalize_intervals, complement_to_speech_segments, round3, round_eq]
  rw [hL, hR]
  simp

/-- C4: the validator compares the *first* record against the *last* record
of the file (`segments[index - 1]` wraps around for index 0,
`validate.py:181`), so on the repository's own two-record "ok" file —
whose consecutive records all satisfy `prev.end − curr.start ≤ 10⁻³` —
it still emits an overlap warning (at line 1, against `prev.end = 3.2`),
and in strict mode an overlap error that makes validation fail.  The claim
says such a file gets no overlap warning and, in strict mode, no overlap
error; the spec's consecutive-pair reading is clearly the intent and the
wrap-around a slip. -/
theorem c4_validator_overlap_wraparound :
    consecutiveOverlapOk [okRecord1, okRecord2] = true ∧
    VMsg.overlapViolation 1 ∈ (validate_segments_jsonl [okRecord1, okRecord2] false).warnings ∧
    (validate_segments_jsonl [okRecord1, okRecord2] false).errors = [] ∧
    (validate_segments_jsonl [okRecord1, okRecord2] false).ok = true ∧
    VMsg.overlapViolation 1 ∈ (validate_segments_jsonl [okRecord1, okRecord2] true).errors ∧
    (validate_segments_jsonl [okRecord1, okRecord2] true).ok = false := by
  have hid1 : segIdNum "seg_000001" = some 1 := by rfl
  have hid2 : segIdNum "seg_000002" = some 2 := by rfl
  refine ⟨?_, ?_⟩
  · norm_num [consecutiveOverlapOk, okRecord1, okRecord2]
  · norm_num [validate_segments_jsonl, validateStep, List.enum, List.enumFrom,
      okRecord1, okRecord2, hid1, hid2, round3Suspect, round_eq,
      VState.errIf, VState.warnIf, VState.addIf, VState.err, VState.warn]

theorem lastOfD_mem {α : Type} (a : α) (l : List α) : lastOfD a l ∈ a :: l := by
  induction l generalizing a with
  | nil => simp [lastOfD]
  | cons b t ih =>
    have := ih b
    simp only [lastOfD]
    rcases List.mem_cons.mp this with h | h
    · simp [h]
    · simp [List.mem_cons.mpr (Or.inr h)]

theorem midGaps_spec (l : List SilenceIv)
    (hg : ∀ iv ∈ l, OnGrid iv.start_sec ∧ OnGrid iv.end_sec)
    (hc : List.Chain' (fun a b => a.end_sec < b.start_sec) l) :
    midGaps l = specMidGaps l ∧ ∀ p ∈ specMidGaps l, p.1 < p.2 := by
  induction l with
  | nil => exact ⟨rfl, by simp [specMidGaps]⟩
  | cons a t ih =>
    cases t with
    | nil => exact ⟨rfl, by simp [specMidGaps]⟩
    | cons b t2 =>
      have hab : a.end_sec < b.start_sec := (List.chain'_cons.mp hc).1
      have hc2 : List.Chain' (fun x y => x.end_sec < y.start_sec) (b :: t2) :=
        (List.chain'_cons.mp hc).2
      have hg2 : ∀ iv ∈ b :: t2, OnGrid iv.start_sec ∧ OnGrid iv.end_sec :=
        fun iv hiv => hg iv (List.mem_cons_of_mem a hiv)
      obtain ⟨ihEq, ihPos⟩ := ih hg2 hc2
      have hga : OnGrid a.end_sec := (hg a (by simp)).2
      have hgb : OnGrid b.start_sec := (hg2 b (by simp)).1
      constructor
      · show (if 0 < b.start_sec - a.end_sec then
            [(round3 a.end_sec, round3 b.start_sec)] else []) ++ midGaps (b :: t2)
          = (a.end_sec, b.start_sec) :: specMidGaps (b :: t2)
        rw [if_pos (by linarith), hga, hgb, ihEq]
        rfl
      · intro p hp
        rcases List.mem_cons.mp hp with h | h
        · rw [h]; exact hab
        · exact ihPos p h

/-- C6: on every normalized, in-range silence list (round-3 values, positive
lengths inside `[0, d]`, strictly separated, round-3 duration),
`complement_to_speech_segments` returns exactly the gap sequence the claim
describes — prefix gap if nonzero, every inter-silence gap, suffix gap if
nonzero, `[(0, d)]` for the empty list when `d > 0` — and on the concrete
example (duration 10, silences `[(0,0.5),(2,2.5),(9,10)]` run through
`normalize_intervals`) it yields `[(0.5, 2.0), (2.5, 9.0)]`. -/
theorem c6_complement_gap_sequence :
    (∀ (silences : List SilenceIv) (d : ℚ), NormalizedIn silences d →
      complement_to_speech_segments silences d = complementSpecGaps silences d) ∧
    complement_to_speech_segments
      (normalize_intervals
        [⟨0, 1/2, 1/2⟩, ⟨2, 5/2, 1/2⟩, ⟨9, 10, 1⟩] (some 10)) 10
      = [(1/2, 2), (5/2, 9)] := by
  constructor
  · rintro silences d ⟨hd, helem, hchain⟩
    have hd' : round3 d = d := hd
    match silences with
    | [] =>
      show (if 0 < d then [(round3 0, round3 d)] else []) = _
      rw [round3_zero, hd']
      rfl
    | first :: rest =>
      have hfirst := helem first (by simp)
      have hf1 : round3 first.start_sec = first.start_sec := hfirst.1
      have hlastmem : lastOfD first rest ∈ first :: rest := lastOfD_mem first rest
      have hlast := helem _ hlastmem
      have hl1 : round3 (lastOfD first rest).end_sec = (lastOfD first rest).end_sec :=
        hlast.2.1
      obtain ⟨hmidEq, hmidPos⟩ := midGaps_spec (first :: rest)
        (fun iv hiv => ⟨(helem iv hiv).1, (helem iv hiv).2.1⟩) hchain
      show List.filter (fun p => decide (p.1 < p.2))
          ((if 0 < first.start_sec then [(round3 0, round3 first.start_sec)] else [])
            ++ midGaps (first :: rest)
            ++ (if (lastOfD first rest).end_sec < d
                then [(round3 (lastOfD first rest).end_sec, round3 d)] else []))
          = complementSpecGaps (first :: rest) d
      rw [round3_zero, hf1, hl1, hd', hmidEq]
      rw [List.filter_append, List.filter_append]
      have hleadEq : List.filter (fun p => decide (p.1 < p.2))
            (if 0 < first.start_sec then [((0 : ℚ), first.start_sec)] else [])
          = (if first.start_sec ≠ 0 then [((0 : ℚ), first.start_sec)] else []) := by
        rcases lt_or_eq_of_le hfirst.2.2.1 with h | h
        · rw [if_pos h, if_pos (by intro hc; rw [hc] at h; exact lt_irrefl 0 h)]
          simp [List.filter_cons, h]
        · rw [if_neg (by rw [← h]; exact lt_irrefl 0),
            if_neg (by rw [← h]; simp)]
          rfl
      have hmidFil : (specMidGaps (first :: rest)).filter (fun p => p.1 < p.2)
          = specMidGaps (first :: rest) :=
        List.filter_eq_self.mpr fun p hp => by simpa using hmidPos p hp
      have htailEq : List.filter (fun p => decide (p.1 < p.2))
            (if (lastOfD first rest).end_sec < d
              then [((lastOfD first rest).end_sec, d)] else [])
          = (if (lastOfD first rest).end_sec ≠ d
            then [((lastOfD first rest).end_sec, d)] else []) := by
        rcases lt_or_eq_of_le hlast.2.2.2.2 with h | h
        · rw [if_pos h, if_pos (ne_of_lt h)]
          simp [List.filter_cons, h]
        · rw [if_neg (by rw [h]; exact lt_irrefl d), if_neg (by rw [h]; simp)]
          rfl
      rw [hleadEq, hmidFil, htailEq]
      rfl
  · norm_num [complement_to_speech_segments, normalize_intervals, clipSil, mergeSilLoop,
      mergedSil, midGaps, List.insertionSort, List.orderedInsert, silLE, round3, round_eq,
      List.filter, lastOfD]

theorem autoTry_head_ok_eval (P : AutoParams) (name : String) (ar : AnalysisResult)
    (rest : List (String × Except AnalyzeFailure AnalysisResult))
    (finalSegs : List (ℚ × ℚ))
    (hpp : postprocess_segments ar.speech_segments_raw ar.duration_sec P.pad_sec
      P.min_seg_sec P.max_seg_sec P.split_strategy = .ok finalSegs) :
    autoTry P ((name, .ok ar) :: rest) =
      (if finalSegs.length < P.min_segments then
        (⟨name, false, some "too_few_segments"⟩ :: (autoTry P rest).1, (autoTry P rest).2)
      else if speechTotal finalSegs < P.min_speech_total_sec then
        (⟨name, false, some "too_short_speech"⟩ :: (autoTry P rest).1, (autoTry P rest).2)
      else if P.max_speech_ratio ≤
          (if 0 < ar.duration_sec then speechTotal finalSegs / ar.duration_sec else 0) then
        (⟨name, false, some "full_span"⟩ :: (autoTry P rest).1, (autoTry P rest).2)
      else ([⟨name, true, none⟩], some (name, ar))) := by
  simp only [autoTry, hpp]

/-- C7: under auto-strategy, a candidate whose analysis succeeds and whose
postprocess yields `finalSegs` is accepted (chosen, with a single passing
attempt recorded) iff `segments_count ≥ min_segments`,
`speech_total ≥ min_speech_total_sec` and `speech_ratio < max_speech_ratio`;
a failing candidate's attempt carries the reason `too_few_segments`,
`too_short_speech` or `full_span`, checked in that order; a missing
dependency is recorded as `missing_dependency` and the next candidate is
tried; and when no candidate is chosen the job fails with one attempt
recorded per candidate (the entire attempt list). -/
theorem c7_auto_strategy_gate :
    (∀ (P : AutoParams) (name : String) (ar : AnalysisResult)
      (rest : List (String × Except AnalyzeFailure AnalysisResult))
      (finalSegs : List (ℚ × ℚ)),
      postprocess_segments ar.speech_segments_raw ar.duration_sec P.pad_sec
        P.min_seg_sec P.max_seg_sec P.split_strategy = .ok finalSegs →
      ((((autoTry P ((name, .ok ar) :: rest)).2 = some (name, ar) ∧
        (autoTry P ((name, .ok ar) :: rest)).1 = [⟨name, true, none⟩])
        ↔ (P.min_segments ≤ finalSegs.length ∧
          P.min_speech_total_sec ≤ speechTotal finalSegs ∧
          (if 0 < ar.duration_sec then speechTotal finalSegs / ar.duration_sec else 0)
            < P.max_speech_ratio)) ∧
      (finalSegs.length < P.min_segments →
        (autoTry P ((name, .ok ar) :: rest)).1.head?
          = some ⟨name, false, some "too_few_segments"⟩) ∧
      (P.min_segments ≤ finalSegs.length →
        speechTotal finalSegs < P.min_speech_total_sec →
        (autoTry P ((name, .ok ar) :: rest)).1.head?
          = some ⟨name, false, some "too_short_speech"⟩) ∧
      (P.min_segments ≤ finalSegs.length →
        P.min_speech_total_sec ≤ speechTotal finalSegs →
        P.max_speech_ratio ≤
          (if 0 < ar.duration_sec then speechTotal finalSegs / ar.duration_sec else 0) →
        (autoTry P ((name, .ok ar) :: rest)).1.head?
          = some ⟨name, false, some "full_span"⟩))) ∧
    (∀ (P : AutoParams) (name msg : String)
      (rest : List (String × Except AnalyzeFailure AnalysisResult)),
      autoTry P ((name, .error (.importFailure msg)) :: rest)
        = (⟨name, false, some "missing_dependency"⟩ :: (autoTry P rest).1,
          (autoTry P rest).2)) ∧
    (∀ (P : AutoParams) (cands : List (String × Except AnalyzeFailure AnalysisResult)),
      (autoTry P cands).2 = none →
      autoStrategySucceeds P cands = false ∧
      (autoTry P cands).1.length = cands.length) := by
  refine ⟨?_, ?_, ?_⟩
  · intro P name ar rest finalSegs hpp
    rw [autoTry_head_ok_eval P name ar rest finalSegs hpp]
    by_cases h1 : finalSegs.length < P.min_segments
    · rw [if_pos h1]
      refine ⟨?_, fun _ => rfl, fun h _ => absurd h1 (not_lt.mpr h),
        fun h _ _ => absurd h1 (not_lt.mpr h)⟩
      constructor
      · rintro ⟨-, hatt⟩
        exact absurd (List.head_eq_of_cons_eq hatt) (by simp)
      · rintro ⟨hc, -, -⟩
        exact absurd h1 (not_lt.mpr hc)
    · rw [if_neg h1]
      by_cases h2 : speechTotal finalSegs < P.min_speech_total_sec
      · rw [if_pos h2]
        refine ⟨?_, fun hc => absurd hc h1, fun _ _ => rfl,
          fun _ h _ => absurd h2 (not_lt.mpr h)⟩
        constructor
        · rintro ⟨-, hatt⟩
          exact absurd (List.head_eq_of_cons_eq hatt) (by simp)
        · rintro ⟨-, hc, -⟩
          exact absurd h2 (not_lt.mpr hc)
      · rw [if_neg h2]
        by_cases h3 : P.max_speech_ratio ≤
            (if 0 < ar.duration_sec then speechTotal finalSegs / ar.duration_sec else 0)
        · rw [if_pos h3]
          refine ⟨?_, fun hc => absurd hc h1, fun _ hc => absurd hc h2,
            fun _ _ _ => rfl⟩
          constructor
          · rintro ⟨-, hatt⟩
            exact absurd (List.head_eq_of_cons_eq hatt) (by simp)
          · rintro ⟨-, -, hc⟩
            exact absurd h3 (not_le.mpr hc)
        · rw [if_neg h3]
          refine ⟨?_, fun hc => absurd hc h1, fun _ hc => absurd hc h2,
            fun _ _ hc => absurd hc h3⟩
          exact ⟨fun _ => ⟨not_lt.mp h1, not_lt.mp h2, not_le.mp h3⟩,
            fun _ => ⟨rfl, rfl⟩⟩
  · intro P name msg rest
    simp only [autoTry]
  · intro P cands
    induction cands with
    | nil =>
      intro h
      exact ⟨rfl, rfl⟩
    | cons c rest ih =>
      obtain ⟨name, exc⟩ := c
      match exc with
      | .error (.importFailure m) =>
        simp only [autoTry, autoStrategySucceeds]
        intro h
        obtain ⟨hs, hlen⟩ := ih h
        refine ⟨?_, by simp [hlen]⟩
        simpa [autoStrategySucceeds] using hs
      | .error (.otherFailure m) =>
        simp only [autoTry, autoStrategySucceeds]
        intro h
        obtain ⟨hs, hlen⟩ := ih h
        refine ⟨?_, by simp [hlen]⟩
        simpa [autoStrategySucceeds] using hs
      | .ok ar =>
        simp only [autoTry, autoStrategySucceeds]
        cases hpp : postprocess_segments ar.speech_segments_raw ar.duration_sec P.pad_sec
            P.min_seg_sec P.max_seg_sec P.split_strategy with
        | error e =>
          dsimp only
          intro h
          obtain ⟨hs, hlen⟩ := ih h
          refine ⟨?_, by simp [hlen]⟩
          simpa [autoStrategySucceeds] using hs
        | ok finalSegs =>
          dsimp only
          by_cases h1 : finalSegs.length < P.min_segments
          · rw [if_pos h1]
            intro h
            obtain ⟨hs, hlen⟩ := ih h
            exact ⟨by simpa [autoStrategySucceeds] using hs, by simp [hlen]⟩
          · rw [if_neg h1]
            by_cases h2 : speechTotal finalSegs < P.min_speech_total_sec
            · rw [if_pos h2]
              intro h
              obtain ⟨hs, hlen⟩ := ih h
              exact ⟨by simpa [autoStrategySucceeds] using hs, by simp [hlen]⟩
            · rw [if_neg h2]
              by_cases h3 : P.max_speech_ratio ≤
                  (if 0 < ar.duration_sec then speechTotal finalSegs / ar.duration_sec
                  else 0)
              · rw [if_pos h3]
                intro h
                obtain ⟨hs, hlen⟩ := ih h
                exact ⟨by simpa [autoStrategySucceeds] using hs, by simp [hlen]⟩
              · rw [if_neg h3]
                intro h
                simp at h

/-- C7 witness: with gate thresholds `min_segments = 1`,
`min_speech_total_sec = 1`, `max_speech_ratio = 0.9`, an energy candidate
whose raw speech is `[(1, 1.4), (3, 5)]` over 10 s postprocesses to
`[(0.8, 5.2)]` and is accepted. -/
theorem c7_auto_strategy_gate_witness :
    postprocess_segments [(1, 7/5), (3, 5)] 10 (1/5) 1 25 "equal"
      = .ok [(4/5, 26/5)] ∧
    (autoTry ⟨1, 1, 9/10, 1/5, 1, 25, "equal"⟩
        [("energy", .ok ⟨"energy", 10, [(1, 7/5), (3, 5)]⟩)]).2
      = some ("energy", ⟨"energy", 10, [(1, 7/5), (3, 5)]⟩) ∧
    (autoTry ⟨1, 1, 9/10, 1/5, 1, 25, "equal"⟩
        [("energy", .ok ⟨"energy", 10, [(1, 7/5), (3, 5)]⟩)]).1
      = [⟨"energy", true, none⟩] := by
  have hpp : postprocess_segments [(1, 7/5), (3, 5)] 10 (1/5) 1 25 "equal"
      = .ok [(4/5, 26/5)] := by
    norm_num [postprocess_segments, apply_padding_and_clip, merge_overlaps, mergeOvLoop,
      enforce_min_duration_by_merge, minLoop, minPassLoop,
      enforce_max_duration_by_split, List.insertionSort, List.orderedInsert, segLE,
      round3, round_eq, List.flatMap, List.filterMap]
  have hacc :=
    ((c7_auto_strategy_gate.1 ⟨1, 1, 9/10, 1/5, 1, 25, "equal"⟩ "energy"
      ⟨"energy", 10, [(1, 7/5), (3, 5)]⟩ [] [(4/5, 26/5)] hpp).1).mpr
      (by norm_num [speechTotal])
  exact ⟨hpp, hacc.1, hacc.2⟩

/-- C6 witness: the general gap-sequence theorem applied to the normalized
one-silence list `[(0.5, 1)]` with duration 10. -/
theorem c6_complement_gap_sequence_witness :
    NormalizedIn [⟨1/2, 1, 1/2⟩] 10 ∧
    complement_to_speech_segments [⟨1/2, 1, 1/2⟩] 10
      = complementSpecGaps [⟨1/2, 1, 1/2⟩] 10 := by
  have hn : NormalizedIn [⟨1/2, 1, 1/2⟩] 10 := by
    refine ⟨by norm_num [OnGrid, round3, round_eq], ?_, by simp⟩
    intro iv hiv
    simp only [List.mem_singleton] at hiv
    subst hiv
    exact ⟨by norm_num [OnGrid, round3, round_eq],
      by norm_num [OnGrid, round3, round_eq], by norm_num, by norm_num, by norm_num⟩
  exact ⟨hn, c6_complement_gap_sequence.1 _ 10 hn⟩

theorem pyTrunc_bounds {q : ℚ} {lo hi : ℤ} (hq1 : (lo : ℚ) ≤ q) (hq2 : q ≤ (hi : ℚ))
    (hlo : lo ≤ 0) (hhi : 0 ≤ hi) : lo ≤ pyTrunc q ∧ pyTrunc q ≤ hi := by
  unfold pyTrunc
  by_cases h : 0 ≤ q
  · rw [if_pos h]
    constructor
    · exact le_trans hlo (Int.floor_nonneg.mpr h)
    · have := Int.floor_mono hq2
      rwa [Int.floor_intCast] at this
  · rw [if_neg h]
    push_neg at h
    constructor
    · have hmono : ⌊-q⌋ ≤ ⌊((-lo : ℤ) : ℚ)⌋ := by
        apply Int.floor_mono
        push_cast
        linarith
      rw [Int.floor_intCast] at hmono
      omega
    · have h0 : 0 ≤ ⌊-q⌋ := Int.floor_nonneg.mpr (by linarith)
      omega

theorem listSum_le_mul {l : List ℤ} {b : ℤ} (h : ∀ x ∈ l, x ≤ b) :
    l.sum ≤ (l.length : ℤ) * b := by
  induction l with
  | nil => simp
  | cons a t ih =>
    have ha := h a (by simp)
    have ht := ih fun x hx => h x (List.mem_cons_of_mem a hx)
    simp only [List.sum_cons, List.length_cons]
    push_cast
    linarith

theorem mul_le_listSum {l : List ℤ} {b : ℤ} (h : ∀ x ∈ l, b ≤ x) :
    (l.length : ℤ) * b ≤ l.sum := by
  induction l with
  | nil => simp
  | cons a t ih =>
    have ha := h a (by simp)
    have ht := ih fun x hx => h x (List.mem_cons_of_mem a hx)
    simp only [List.sum_cons, List.length_cons]
    push_cast
    linarith

theorem avgChunks_range (n : ℕ) (l : List ℤ) :
    (∀ x ∈ l, Int16Range x) → ∀ y ∈ avgChunks n l, Int16Range y := by
  refine avgChunks.induct n
    (fun l => (∀ x ∈ l, Int16Range x) → ∀ y ∈ avgChunks n l, Int16Range y) ?_ ?_ l
  · intro l hcond ih h
    rw [avgChunks, dif_pos hcond]
    intro y hy
    rcases List.mem_cons.mp hy with hy | hy
    · subst hy
      have htake : ∀ x ∈ l.take n, Int16Range x :=
        fun x hx => h x (List.mem_of_mem_take hx)
      have hlen : (l.take n).length = n := List.length_take_of_le hcond.2
      have hup : (l.take n).sum ≤ (n : ℤ) * 32767 := by
        have := listSum_le_mul (b := 32767) fun x hx => (htake x hx).2
        rwa [hlen] at this
      have hdown : (n : ℤ) * (-32768) ≤ (l.take n).sum := by
        have := mul_le_listSum (b := -32768) fun x hx => (htake x hx).1
        rwa [hlen] at this
      have hn0 : (0 : ℚ) < n := by exact_mod_cast hcond.1
      have hdownQ : (-32768 : ℚ) * n ≤ ((l.take n).sum : ℚ) := by
        calc (-32768 : ℚ) * n = (((n : ℤ) * (-32768) : ℤ) : ℚ) := by push_cast; ring
        _ ≤ ((l.take n).sum : ℚ) := by exact_mod_cast hdown
      have hupQ : ((l.take n).sum : ℚ) ≤ 32767 * n := by
        calc ((l.take n).sum : ℚ) ≤ (((n : ℤ) * 32767 : ℤ) : ℚ) := by exact_mod_cast hup
        _ = 32767 * n := by push_cast; ring
      have hq1 : ((-32768 : ℤ) : ℚ) ≤ ((l.take n).sum : ℚ) / n := by
        rw [le_div_iff₀ hn0]
        calc ((-32768 : ℤ) : ℚ) * (n : ℚ) = (-32768 : ℚ) * n := by norm_num
        _ ≤ ((l.take n).sum : ℚ) := hdownQ
      have hq2 : ((l.take n).sum : ℚ) / n ≤ ((32767 : ℤ) : ℚ) := by
        rw [div_le_iff₀ hn0]
        calc ((l.take n).sum : ℚ) ≤ 32767 * n := hupQ
        _ = ((32767 : ℤ) : ℚ) * n := by norm_num
      exact pyTrunc_bounds hq1 hq2 (by norm_num) (by norm_num)
    · exact ih (fun x hx => h x (List.mem_of_mem_drop hx)) y hy
  · intro l hcond h
    rw [avgChunks, dif_neg hcond]
    simp

theorem sumSq_nonneg (l : List ℤ) : 0 ≤ (l.map fun x : ℤ => ((x : ℚ)) ^ 2).sum := by
  induction l with
  | nil => simp
  | cons a t ih =>
    simp only [List.map_cons, List.sum_cons]
    have := sq_nonneg ((a : ℚ))
    linarith

theorem sumSq_le (l : List ℤ) (h : ∀ x ∈ l, Int16Range x) :
    (l.map fun x : ℤ => ((x : ℚ)) ^ 2).sum ≤ (l.length : ℚ) * 32768 ^ 2 := by
  induction l with
  | nil => simp
  | cons a t ih =>
    have ha := h a (by simp)
    have hsq : ((a : ℚ)) ^ 2 ≤ 32768 ^ 2 := by
      have h1 : ((a : ℚ)) ≤ 32768 := by
        have : (a : ℚ) ≤ 32767 := by exact_mod_cast ha.2
        linarith
      have h2 : (-32768 : ℚ) ≤ (a : ℚ) := by exact_mod_cast ha.1
      nlinarith
    have ht := ih fun x hx => h x (List.mem_cons_of_mem a hx)
    simp only [List.map_cons, List.sum_cons, List.length_cons]
    push_cast
    linarith

theorem rmsValBounds (audio : List ℤ) (h : ∀ y ∈ audio, Int16Range y) :
    0 ≤ Real.sqrt (((if 0 < audio.length
        then ((audio.map fun x : ℤ => ((x : ℚ)) ^ 2).sum) / (audio.length : ℚ)
        else 0) : ℚ) : ℝ) / 32768 ∧
      Real.sqrt (((if 0 < audio.length
        then ((audio.map fun x : ℤ => ((x : ℚ)) ^ 2).sum) / (audio.length : ℚ)
        else 0) : ℚ) : ℝ) / 32768 ≤ 1 := by
  have hm0 : (0 : ℚ) ≤ (if 0 < audio.length
      then ((audio.map fun x : ℤ => ((x : ℚ)) ^ 2).sum) / (audio.length : ℚ) else 0) := by
    split
    · exact div_nonneg (sumSq_nonneg audio) (by positivity)
    · exact le_refl 0
  have hm1 : (if 0 < audio.length
      then ((audio.map fun x : ℤ => ((x : ℚ)) ^ 2).sum) / (audio.length : ℚ) else 0)
      ≤ 32768 ^ 2 := by
    split
    · next hlen =>
      rw [div_le_iff₀ (by exact_mod_cast hlen)]
      calc ((audio.map fun x : ℤ => ((x : ℚ)) ^ 2).sum)
          ≤ (audio.length : ℚ) * 32768 ^ 2 := sumSq_le audio h
        _ = 32768 ^ 2 * (audio.length : ℚ) := by ring
    · norm_num
  constructor
  · positivity
  · rw [div_le_one (by norm_num : (0 : ℝ) < 32768)]
    have hsq : Real.sqrt (((32768 : ℚ) ^ 2 : ℚ) : ℝ) = 32768 := by
      push_cast
      rw [show ((32768 : ℝ)) ^ 2 = 32768 ^ 2 from rfl]
      exact Real.sqrt_sq (by norm_num)
    calc Real.sqrt _ ≤ Real.sqrt (((32768 : ℚ) ^ 2 : ℚ) : ℝ) :=
          Real.sqrt_le_sqrt (by exact_mod_cast hm1)
      _ = 32768 := hsq

/-- C10: `compute_rms` returns `None` rather than raising on an invalid time
range (`start < 0` or `end ≤ start`), on a file the `wave` module cannot
open (any wave/OS error), and on a sample width other than 16-bit PCM; and
every non-`None` result lies in the closed interval `[0, 1]` (the samples
decoded by `array("h", ...)` are 16-bit).  In the embedding, every caught
exception branch of the source is a `none`, and the function is total by
construction.  Arithmetic is exact (rationals, real square root) rather
than IEEE double. -/
theorem c10_compute_rms_safe :
    (∀ (wav : Option WavFile) (start_sec end_sec : ℚ),
      (start_sec < 0 ∨ end_sec ≤ start_sec) → compute_rms wav start_sec end_sec = none) ∧
    (∀ start_sec end_sec : ℚ, compute_rms none start_sec end_sec = none) ∧
    (∀ (w : WavFile) (start_sec end_sec : ℚ), w.sampleWidth ≠ 2 →
      compute_rms (some w) start_sec end_sec = none) ∧
    (∀ (w : WavFile) (start_sec end_sec : ℚ),
      (∀ x ∈ w.samples, Int16Range x) →
      ∀ r : ℝ, compute_rms (some w) start_sec end_sec = some r → 0 ≤ r ∧ r ≤ 1) := by
  refine ⟨?_, ?_, ?_, ?_⟩
  · intro wav s e h
    unfold compute_rms
    rw [if_pos h]
  · intro s e
    unfold compute_rms
    split <;> rfl
  · intro w s e hw
    unfold compute_rms
    split
    · rfl
    · dsimp only
      rw [if_pos hw]
  · intro w s e hrange r hr
    unfold compute_rms at hr
    split at hr
    · exact absurd hr (by simp)
    dsimp only at hr
    split at hr
    · exact absurd hr (by simp)
    split at hr
    · exact absurd hr (by simp)
    split at hr
    · exact absurd hr (by simp)
    split at hr
    · exact absurd hr (by simp)
    rw [Option.some_inj] at hr
    subst hr
    apply rmsValBounds
    intro y hy
    by_cases hch : 1 < w.nChannels
    · rw [if_pos hch] at hy
      exact avgChunks_range _ _
        (fun x hx => hrange x (List.mem_of_mem_drop (List.mem_of_mem_take hx))) y hy
    · rw [if_neg hch] at hy
      exact hrange y (List.mem_of_mem_drop (List.mem_of_mem_take hy))

/-- C10 witness: a mono 16-bit file with three samples and the range
`[0, 1)` s; the theorem's range part applied there. -/
theorem c10_compute_rms_safe_witness :
    (∀ x ∈ ([100, -200, 300] : List ℤ), Int16Range x) ∧
    (∀ r : ℝ,
      compute_rms (some ⟨16000, 2, 1, 3, [100, -200, 300]⟩) 0 1 = some r →
      0 ≤ r ∧ r ≤ 1) ∧
    compute_rms none 0 1 = none := by
  have hsamp : ∀ x ∈ ([100, -200, 300] : List ℤ), Int16Range x := by
    intro x hx
    simp only [List.mem_cons, List.mem_singleton] at hx
    rcases hx with rfl | rfl | rfl | h
    · exact ⟨by norm_num, by norm_num⟩
    · exact ⟨by norm_num, by norm_num⟩
    · exact ⟨by norm_num, by norm_num⟩
    · cases h
  exact ⟨hsamp,
    fun r hr => c10_compute_rms_safe.2.2.2 ⟨16000, 2, 1, 3, [100, -200, 300]⟩ 0 1 hsamp r hr,
    c10_compute_rms_safe.2.1 0 1⟩

theorem minPassLoop_nil {m : ℚ} {acc : List (ℚ × ℚ)} {c : Bool} :
    minPassLoop m acc c [] = (acc, c) := by
  rw [minPassLoop.eq_def]

theorem minPassLoop_good {m : ℚ} {acc : List (ℚ × ℚ)} {c : Bool} {p : ℚ × ℚ}
    {rest : List (ℚ × ℚ)} (h : m ≤ p.2 - p.1) :
    minPassLoop m acc c (p :: rest)
      = minPassLoop m (acc ++ [(round3 p.1, round3 p.2)]) c rest := by
  rw [minPassLoop.eq_def]
  dsimp only
  rw [if_pos h]

theorem minPassLoop_mergeLeft {m : ℚ} {acc : List (ℚ × ℚ)} {c : Bool} {p : ℚ × ℚ}
    {left right : ℚ × ℚ} {rest2 : List (ℚ × ℚ)} (h : ¬ m ≤ p.2 - p.1)
    (hlast : acc.getLast? = some left) (hgap : p.1 - left.2 < right.1 - p.2) :
    minPassLoop m acc c (p :: right :: rest2)
      = minPassLoop m (acc.dropLast ++ [(round3 left.1, round3 (max left.2 p.2))]) true
          (right :: rest2) := by
  rw [minPassLoop.eq_def]
  dsimp only
  rw [if_neg h, hlast]
  dsimp only
  rw [if_pos hgap]

theorem minPassLoop_mergeRight {m : ℚ} {acc : List (ℚ × ℚ)} {c : Bool} {p : ℚ × ℚ}
    {left right : ℚ × ℚ} {rest2 : List (ℚ × ℚ)} (h : ¬ m ≤ p.2 - p.1)
    (hlast : acc.getLast? = some left) (hgap : ¬ p.1 - left.2 < right.1 - p.2) :
    minPassLoop m acc c (p :: right :: rest2)
      = minPassLoop m (acc ++ [(round3 (min p.1 right.1), round3 (max p.2 right.2))]) true
          rest2 := by
  rw [minPassLoop.eq_def]
  dsimp only
  rw [if_neg h, hlast]
  dsimp only
  rw [if_neg hgap]

theorem minPassLoop_leftOnly {m : ℚ} {acc : List (ℚ × ℚ)} {c : Bool} {p : ℚ × ℚ}
    {left : ℚ × ℚ} (h : ¬ m ≤ p.2 - p.1) (hlast : acc.getLast? = some left) :
    minPassLoop m acc c [p]
      = (acc.dropLast ++ [(round3 left.1, round3 (max left.2 p.2))], true) := by
  rw [minPassLoop.eq_def]
  dsimp only
  rw [if_neg h, hlast]

theorem minPassLoop_rightOnly {m : ℚ} {acc : List (ℚ × ℚ)} {c : Bool} {p : ℚ × ℚ}
    {right : ℚ × ℚ} {rest2 : List (ℚ × ℚ)} (h : ¬ m ≤ p.2 - p.1)
    (hlast : acc.getLast? = none) :
    minPassLoop m acc c (p :: right :: rest2)
      = minPassLoop m (acc ++ [(round3 (min p.1 right.1), round3 (max p.2 right.2))]) true
          rest2 := by
  rw [minPassLoop.eq_def]
  dsimp only
  rw [if_neg h, hlast]

theorem minPassLoop_dropIsolated {m : ℚ} {acc : List (ℚ × ℚ)} {c : Bool} {p : ℚ × ℚ}
    (h : ¬ m ≤ p.2 - p.1) (hlast : acc.getLast? = none) :
    minPassLoop m acc c [p] = (acc, c) := by
  rw [minPassLoop.eq_def]
  dsimp only
  rw [if_neg h, hlast]

theorem minPassLoop_true (m : ℚ) (acc : List (ℚ × ℚ)) (c : Bool)
    (rest : List (ℚ × ℚ)) : c = true → (minPassLoop m acc c rest).2 = true := by
  refine minPassLoop.induct m
    (fun acc c rest => c = true → (minPassLoop m acc c rest).2 = true)
    ?_ ?_ ?_ ?_ ?_ ?_ ?_ acc c rest
  · intro acc c hc
    rw [minPassLoop_nil, hc]
  · intro acc c p rest hgood ih hc
    rw [minPassLoop_good hgood]
    exact ih hc
  · intro acc c p hshort left right rest2 hlast hgap ih hc
    rw [minPassLoop_mergeLeft hshort hlast hgap]
    exact ih rfl
  · intro acc c p hshort left right rest2 hlast hgap ih hc
    rw [minPassLoop_mergeRight hshort hlast hgap]
    exact ih rfl
  · intro acc c p hshort left hlast hc
    rw [minPassLoop_leftOnly hshort hlast]
  · intro acc c p hshort right rest2 hlast ih hc
    rw [minPassLoop_rightOnly hshort hlast]
    exact ih rfl
  · intro acc c p hshort hlast hc
    rw [minPassLoop_dropIsolated hshort hlast, hc]

theorem minPassLoop_grid (m : ℚ) (acc : List (ℚ × ℚ)) (c : Bool)
    (rest : List (ℚ × ℚ)) :
    (∀ p ∈ acc, GridSeg p) → ∀ p ∈ (minPassLoop m acc c rest).1, GridSeg p := by
  refine minPassLoop.induct m
    (fun acc c rest =>
      (∀ p ∈ acc, GridSeg p) → ∀ p ∈ (minPassLoop m acc c rest).1, GridSeg p)
    ?_ ?_ ?_ ?_ ?_ ?_ ?_ acc c rest
  · intro acc c hacc
    rw [minPassLoop_nil]
    exact hacc
  · intro acc c p rest hgood ih hacc
    rw [minPassLoop_good hgood]
    refine ih ?_
    intro q hq
    rcases List.mem_append.mp hq with h | h
    · exact hacc q h
    · rw [List.mem_singleton.mp h]
      exact ⟨onGrid_round3 _, onGrid_round3 _⟩
  · intro acc c p hshort left right rest2 hlast hgap ih hacc
    rw [minPassLoop_mergeLeft hshort hlast hgap]
    refine ih ?_
    intro q hq
    rcases List.mem_append.mp hq with h | h
    · exact hacc q (List.dropLast_subset _ h)
    · rw [List.mem_singleton.mp h]
      exact ⟨onGrid_round3 _, onGrid_round3 _⟩
  · intro acc c p hshort left right rest2 hlast hgap ih hacc
    rw [minPassLoop_mergeRight hshort hlast hgap]
    refine ih ?_
    intro q hq
    rcases List.mem_append.mp hq with h | h
    · exact hacc q h
    · rw [List.mem_singleton.mp h]
      exact ⟨onGrid_round3 _, onGrid_round3 _⟩
  · intro acc c p hshort left hlast hacc
    rw [minPassLoop_leftOnly hshort hlast]
    intro q hq
    rcases List.mem_append.mp hq with h | h
    · exact hacc q (List.dropLast_subset _ h)
    · rw [List.mem_singleton.mp h]
      exact ⟨onGrid_round3 _, onGrid_round3 _⟩
  · intro acc c p hshort right rest2 hlast ih hacc
    rw [minPassLoop_rightOnly hshort hlast]
    refine ih ?_
    intro q hq
    rcases List.mem_append.mp hq with h | h
    · exact hacc q h
    · rw [List.mem_singleton.mp h]
      exact ⟨onGrid_round3 _, onGrid_round3 _⟩
  · intro acc c p hshort hlast hacc
    rw [minPassLoop_dropIsolated hshort hlast]
    exact hacc

theorem minPassLoop_false_src (m : ℚ) (acc : List (ℚ × ℚ)) (c : Bool)
    (rest : List (ℚ × ℚ)) :
    (minPassLoop m acc c rest).2 = false →
    ∀ p ∈ (minPassLoop m acc c rest).1,
      p ∈ acc ∨ ∃ q ∈ rest, p = (round3 q.1, round3 q.2) ∧ m ≤ q.2 - q.1 := by
  refine minPassLoop.induct m
    (fun acc c rest =>
      (minPassLoop m acc c rest).2 = false →
      ∀ p ∈ (minPassLoop m acc c rest).1,
        p ∈ acc ∨ ∃ q ∈ rest, p = (round3 q.1, round3 q.2) ∧ m ≤ q.2 - q.1)
    ?_ ?_ ?_ ?_ ?_ ?_ ?_ acc c rest
  · intro acc c _ p hp
    rw [minPassLoop_nil] at hp
    exact Or.inl hp
  · intro acc c p rest hgood ih hfalse q hq
    rw [minPassLoop_good hgood] at hfalse hq
    rcases ih hfalse q hq with h | ⟨q2, hq2, heq, hge⟩
    · rcases List.mem_append.mp h with h | h
      · exact Or.inl h
      · exact Or.inr ⟨p, by simp, by rw [List.mem_singleton.mp h], hgood⟩
    · exact Or.inr ⟨q2, List.mem_cons_of_mem p hq2, heq, hge⟩
  · intro acc c p hshort left right rest2 hlast hgap ih hfalse
    rw [minPassLoop_mergeLeft hshort hlast hgap] at hfalse
    rw [minPassLoop_true m _ true _ rfl] at hfalse
    cases hfalse
  · intro acc c p hshort left right rest2 hlast hgap ih hfalse
    rw [minPassLoop_mergeRight hshort hlast hgap] at hfalse
    rw [minPassLoop_true m _ true _ rfl] at hfalse
    cases hfalse
  · intro acc c p hshort left hlast hfalse
    rw [minPassLoop_leftOnly hshort hlast] at hfalse
    cases hfalse
  · intro acc c p hshort right rest2 hlast ih hfalse
    rw [minPassLoop_rightOnly hshort hlast] at hfalse
    rw [minPassLoop_true m _ true _ rfl] at hfalse
    cases hfalse
  · intro acc c p hshort hlast hfalse q hq
    rw [minPassLoop_dropIsolated hshort hlast] at hq
    exact Or.inl hq

theorem minPassLoop_len_le (m : ℚ) (acc : List (ℚ × ℚ)) (c : Bool)
    (rest : List (ℚ × ℚ)) :
    (minPassLoop m acc c rest).1.length ≤ acc.length + rest.length := by
  refine minPassLoop.induct m
    (fun acc c rest =>
      (minPassLoop m acc c rest).1.length ≤ acc.length + rest.length)
    ?_ ?_ ?_ ?_ ?_ ?_ ?_ acc c rest
  · intro acc c
    rw [minPassLoop_nil]
    simp
  · intro acc c p rest hgood ih
    rw [minPassLoop_good hgood]
    refine le_trans ih ?_
    simp only [List.length_append, List.length_singleton, List.length_cons, List.length_nil]
    omega
  · intro acc c p hshort left right rest2 hlast hgap ih
    rw [minPassLoop_mergeLeft hshort hlast hgap]
    have hne : acc ≠ [] := by
      intro h
      rw [h] at hlast
      simp at hlast
    have h1 : 1 ≤ acc.length := List.length_pos.mpr hne
    refine le_trans ih ?_
    simp only [List.length_append, List.length_cons, List.length_singleton, List.length_nil,
      List.length_dropLast]
    omega
  · intro acc c p hshort left right rest2 hlast hgap ih
    rw [minPassLoop_mergeRight hshort hlast hgap]
    refine le_trans ih ?_
    simp only [List.length_append, List.length_singleton, List.length_cons, List.length_nil]
    omega
  · intro acc c p hshort left hlast
    rw [minPassLoop_leftOnly hshort hlast]
    have hne : acc ≠ [] := by
      intro h
      rw [h] at hlast
      simp at hlast
    have h1 : 1 ≤ acc.length := List.length_pos.mpr hne
    simp only [List.length_append, List.length_cons, List.length_singleton, List.length_nil,
      List.length_dropLast]
    omega
  · intro acc c p hshort right rest2 hlast ih
    rw [minPassLoop_rightOnly hshort hlast]
    refine le_trans ih ?_
    simp only [List.length_append, List.length_singleton, List.length_cons, List.length_nil]
    omega
  · intro acc c p hshort hlast
    rw [minPassLoop_dropIsolated hshort hlast]
    simp

theorem minPassLoop_len_lt (m : ℚ) (acc : List (ℚ × ℚ)) (c : Bool)
    (rest : List (ℚ × ℚ)) :
    c = false → (minPassLoop m acc c rest).2 = true →
    (minPassLoop m acc c rest).1.length < acc.length + rest.length := by
  refine minPassLoop.induct m
    (fun acc c rest =>
      c = false → (minPassLoop m acc c rest).2 = true →
      (minPassLoop m acc c rest).1.length < acc.length + rest.length)
    ?_ ?_ ?_ ?_ ?_ ?_ ?_ acc c rest
  · intro acc c hc htrue
    rw [minPassLoop_nil] at htrue
    rw [hc] at htrue
    cases htrue
  · intro acc c p rest hgood ih hc htrue
    rw [minPassLoop_good hgood] at htrue ⊢
    have := ih hc htrue
    simp only [List.length_append, List.length_singleton, List.length_cons, List.length_nil] at this ⊢
    omega
  · intro acc c p hshort left right rest2 hlast hgap ih hc htrue
    rw [minPassLoop_mergeLeft hshort hlast hgap]
    have hne : acc ≠ [] := by
      intro h
      rw [h] at hlast
      simp at hlast
    have h1 : 1 ≤ acc.length := List.length_pos.mpr hne
    have := minPassLoop_len_le m
      (acc.dropLast ++ [(round3 left.1, round3 (max left.2 p.2))]) true (right :: rest2)
    simp only [List.length_append, List.length_singleton, List.length_cons, List.length_nil,
      List.length_dropLast] at this ⊢
    omega
  · intro acc c p hshort left right rest2 hlast hgap ih hc htrue
    rw [minPassLoop_mergeRight hshort hlast hgap]
    have := minPassLoop_len_le m
      (acc ++ [(round3 (min p.1 right.1), round3 (max p.2 right.2))]) true rest2
    simp only [List.length_append, List.length_singleton, List.length_cons, List.length_nil] at this ⊢
    omega
  · intro acc c p hshort left hlast hc htrue
    rw [minPassLoop_leftOnly hshort hlast]
    have hne : acc ≠ [] := by
      intro h
      rw [h] at hlast
      simp at hlast
    have h1 : 1 ≤ acc.length := List.length_pos.mpr hne
    simp only [List.length_append, List.length_singleton, List.length_cons, List.length_nil,
      List.length_dropLast]
    omega
  · intro acc c p hshort right rest2 hlast ih hc htrue
    rw [minPassLoop_rightOnly hshort hlast]
    have := minPassLoop_len_le m
      (acc ++ [(round3 (min p.1 right.1), round3 (max p.2 right.2))]) true rest2
    simp only [List.length_append, List.length_singleton, List.length_cons, List.length_nil] at this ⊢
    omega
  · intro acc c p hshort hlast hc htrue
    rw [minPassLoop_dropIsolated hshort hlast] at htrue
    rw [hc] at htrue
    cases htrue

theorem minLoop_allGood (m : ℚ) (fuel : ℕ) (l : List (ℚ × ℚ))
    (hg : ∀ p ∈ l, GridSeg p) (hfuel : l.length < fuel) :
    ∀ p ∈ minLoop m fuel l, m ≤ p.2 - p.1 := by
  induction fuel generalizing l with
  | zero => omega
  | succ f ih =>
    rw [minLoop]
    rcases hres : minPassLoop m [] false l with ⟨l2, b⟩
    cases b
    · intro p hp
      have hsrc := minPassLoop_false_src m [] false l (by rw [hres]) p (by rw [hres]; exact hp)
      rcases hsrc with h | ⟨q, hq, heq, hge⟩
      · cases h
      · obtain ⟨hg1, hg2⟩ := hg q hq
        rw [heq]
        show m ≤ round3 q.2 - round3 q.1
        rw [hg1, hg2]
        exact hge
    · have hlt : l2.length < l.length := by
        have := minPassLoop_len_lt m [] false l rfl (by rw [hres])
        rw [hres] at this
        simpa using this
      have hg2 : ∀ p ∈ l2, GridSeg p := by
        have := minPassLoop_grid m [] false l (by simp)
        rw [hres] at this
        exact this
      exact ih l2 hg2 (by omega)

theorem minLoop_fixpoint {m : ℚ} {fuel : ℕ} {l l2 : List (ℚ × ℚ)}
    (h : minPassLoop m [] false l = (l2, false)) : minLoop m (fuel + 1) l = l2 := by
  rw [minLoop, h]

theorem minLoop_step {m : ℚ} {fuel : ℕ} {l l2 : List (ℚ × ℚ)}
    (h : minPassLoop m [] false l = (l2, true)) :
    minLoop m (fuel + 1) l = minLoop m fuel l2 := by
  rw [minLoop, h]

theorem enforce_min_eval {segs sorted out : List (ℚ × ℚ)} {m : ℚ} {ms : Option ℚ}
    (hne : segs ≠ []) (hsort : List.insertionSort segLE segs = sorted)
    (hrun : minLoop m (segs.length + 1) sorted = out) :
    enforce_min_duration_by_merge segs m ms = out := by
  match segs, hne with
  | p :: rest, _ =>
    show minLoop m ((p :: rest).length + 1) (List.insertionSort segLE (p :: rest)) = out
    rw [hsort, hrun]

/-- C5: `enforce_min_duration_by_merge` eliminates every under-length segment
deterministically.  Conjuncts: (1) the spec's concrete example
`[(0, 0.4), (0.6, 2)]` with `min = 1` gives `[(0, 2)]` (only the right
neighbour exists); (2) on round-3 input no segment shorter than `min_sec`
survives (iteration runs to fixpoint); (3) an isolated short segment with no
neighbour is dropped; (4) with only a left neighbour the short segment merges
into it; (5) with both neighbours and a strictly smaller left gap it merges
left; (6) with both neighbours and equal gaps it merges with the *right*
neighbour. -/
theorem c5_enforce_min_merge_deterministic :
    enforce_min_duration_by_merge [(0, 2/5), (3/5, 2)] 1 none = [(0, 2)] ∧
    (∀ (segments : List (ℚ × ℚ)) (m : ℚ) (ms : Option ℚ),
      (∀ p ∈ segments, GridSeg p) →
      ∀ p ∈ enforce_min_duration_by_merge segments m ms, m ≤ p.2 - p.1) ∧
    (∀ (s e m : ℚ) (ms : Option ℚ), e - s < m →
      enforce_min_duration_by_merge [(s, e)] m ms = []) ∧
    (∀ (a1 a2 b1 b2 m : ℚ) (ms : Option ℚ),
      OnGrid a1 → OnGrid a2 → OnGrid b2 →
      a1 ≤ b1 → m ≤ a2 - a1 → b2 - b1 < m →
      enforce_min_duration_by_merge [(a1, a2), (b1, b2)] m ms
        = [(a1, max a2 b2)]) ∧
    (∀ (a1 a2 b1 b2 c1 c2 m : ℚ) (ms : Option ℚ),
      OnGrid a1 → OnGrid a2 → OnGrid b2 → OnGrid c1 → OnGrid c2 →
      a1 ≤ b1 → b1 ≤ c1 → m ≤ a2 - a1 → b2 - b1 < m → m ≤ c2 - c1 →
      b1 - a2 < c1 - b2 →
      enforce_min_duration_by_merge [(a1, a2), (b1, b2), (c1, c2)] m ms
        = [(a1, max a2 b2), (c1, c2)]) ∧
    (∀ (a1 a2 b1 b2 c1 c2 m : ℚ) (ms : Option ℚ),
      OnGrid a1 → OnGrid a2 → OnGrid b1 → OnGrid c2 →
      a1 ≤ b1 → b1 ≤ c1 → b2 ≤ c2 → m ≤ a2 - a1 → b2 - b1 < m → m ≤ c2 - c1 →
      b1 - a2 = c1 - b2 →
      enforce_min_duration_by_merge [(a1, a2), (b1, b2), (c1, c2)] m ms
        = [(a1, a2), (b1, c2)]) := by
  refine ⟨?_, ?_, ?_, ?_, ?_, ?_⟩
  · norm_num [enforce_min_duration_by_merge, minLoop, minPassLoop, List.insertionSort,
      List.orderedInsert, segLE, round3, round_eq]
  · intro segments m ms hg p hp
    match segments, hp with
    | q :: rest, hp =>
      have hgs : ∀ p ∈ List.insertionSort segLE (q :: rest), GridSeg p := by
        intro x hx
        exact hg x ((List.perm_insertionSort segLE (q :: rest)).mem_iff.mp hx)
      have hlen : (List.insertionSort segLE (q :: rest)).length < (q :: rest).length + 1 := by
        rw [(List.perm_insertionSort segLE (q :: rest)).length_eq]
        omega
      exact minLoop_allGood m ((q :: rest).length + 1) _ hgs hlen p hp
  · intro s e m ms hshort
    have hsort : List.insertionSort segLE [(s, e)] = [(s, e)] := by
      simp [List.insertionSort, List.orderedInsert]
    refine enforce_min_eval (by simp) hsort ?_
    have hpass : minPassLoop m [] false [(s, e)] = ([], false) :=
      minPassLoop_dropIsolated (by simpa using not_le.mpr hshort) rfl
    show minLoop m 2 [(s, e)] = []
    rw [show (2 : ℕ) = 1 + 1 from rfl, minLoop_fixpoint hpass]
  · intro a1 a2 b1 b2 m ms hga1 hga2 hgb2 hab hgooda hshortb
    have e1 : round3 a1 = a1 := hga1
    have e2 : round3 a2 = a2 := hga2
    have emax : round3 (max a2 b2) = max a2 b2 := onGrid_max hga2 hgb2
    have hgood2 : m ≤ max a2 b2 - a1 := le_trans hgooda (by
      have := le_max_left a2 b2
      linarith)
    have hsort : List.insertionSort segLE [(a1, a2), (b1, b2)] = [(a1, a2), (b1, b2)] := by
      simp [List.insertionSort, List.orderedInsert, segLE, hab]
    refine enforce_min_eval (by simp) hsort ?_
    have hpass1 : minPassLoop m [] false [(a1, a2), (b1, b2)]
        = ([(a1, max a2 b2)], true) := by
      rw [minPassLoop_good (by simpa using hgooda)]
      dsimp only [List.nil_append]
      rw [e1, e2]
      rw [minPassLoop_leftOnly (by simpa using not_le.mpr hshortb)
        (List.getLast?_singleton _)]
      dsimp only [List.dropLast_single, List.nil_append]
      rw [e1, emax]
    have hpass2 : minPassLoop m [] false [(a1, max a2 b2)]
        = ([(a1, max a2 b2)], false) := by
      rw [minPassLoop_good (by simpa using hgood2), minPassLoop_nil]
      dsimp only [List.nil_append]
      rw [e1, emax]
    show minLoop m 3 [(a1, a2), (b1, b2)] = [(a1, max a2 b2)]
    rw [show (3 : ℕ) = 2 + 1 from rfl, minLoop_step hpass1,
      show (2 : ℕ) = 1 + 1 from rfl, minLoop_fixpoint hpass2]
  · intro a1 a2 b1 b2 c1 c2 m ms hga1 hga2 hgb2 hgc1 hgc2 hab hbc hgooda hshortb hgoodc
      hgap
    have e1 : round3 a1 = a1 := hga1
    have e2 : round3 a2 = a2 := hga2
    have ec1 : round3 c1 = c1 := hgc1
    have ec2 : round3 c2 = c2 := hgc2
    have emax : round3 (max a2 b2) = max a2 b2 := onGrid_max hga2 hgb2
    have hgood2 : m ≤ max a2 b2 - a1 := le_trans hgooda (by
      have := le_max_left a2 b2
      linarith)
    have hsort : List.insertionSort segLE [(a1, a2), (b1, b2), (c1, c2)]
        = [(a1, a2), (b1, b2), (c1, c2)] := by
      simp [List.insertionSort, List.orderedInsert, segLE, hab, hbc, le_trans hab hbc]
    refine enforce_min_eval (by simp) hsort ?_
    have hpass1 : minPassLoop m [] false [(a1, a2), (b1, b2), (c1, c2)]
        = ([(a1, max a2 b2), (c1, c2)], true) := by
      rw [minPassLoop_good (by simpa using hgooda)]
      dsimp only [List.nil_append]
      rw [e1, e2]
      rw [minPassLoop_mergeLeft (by simpa using not_le.mpr hshortb)
        (List.getLast?_singleton _) (by dsimp only; exact hgap)]
      dsimp only [List.dropLast_single, List.nil_append]
      rw [e1, emax]
      rw [minPassLoop_good (by simpa using hgoodc), minPassLoop_nil]
      dsimp only [List.cons_append, List.nil_append]
      rw [ec1, ec2]
    have hpass2 : minPassLoop m [] false [(a1, max a2 b2), (c1, c2)]
        = ([(a1, max a2 b2), (c1, c2)], false) := by
      rw [minPassLoop_good (by simpa using hgood2)]
      dsimp only [List.nil_append]
      rw [e1, emax]
      rw [minPassLoop_good (by simpa using hgoodc), minPassLoop_nil]
      dsimp only [List.cons_append, List.nil_append]
      rw [ec1, ec2]
    show minLoop m 4 [(a1, a2), (b1, b2), (c1, c2)] = [(a1, max a2 b2), (c1, c2)]
    rw [show (4 : ℕ) = 3 + 1 from rfl, minLoop_step hpass1,
      show (3 : ℕ) = 2 + 1 from rfl, minLoop_fixpoint hpass2]
  · intro a1 a2 b1 b2 c1 c2 m ms hga1 hga2 hgb1 hgc2 hab hbc hb2c2 hgooda hshortb hgoodc
      hgap
    have e1 : round3 a1 = a1 := hga1
    have e2 : round3 a2 = a2 := hga2
    have eb1 : round3 b1 = b1 := hgb1
    have ec2 : round3 c2 = c2 := hgc2
    have hgoodbc : m ≤ c2 - b1 := le_trans hgoodc (by linarith)
    have hsort : List.insertionSort segLE [(a1, a2), (b1, b2), (c1, c2)]
        = [(a1, a2), (b1, b2), (c1, c2)] := by
      simp [List.insertionSort, List.orderedInsert, segLE, hab, hbc, le_trans hab hbc]
    refine enforce_min_eval (by simp) hsort ?_
    have hpass1 : minPassLoop m [] false [(a1, a2), (b1, b2), (c1, c2)]
        = ([(a1, a2), (b1, c2)], true) := by
      rw [minPassLoop_good (by simpa using hgooda)]
      dsimp only [List.nil_append]
      rw [e1, e2]
      rw [minPassLoop_mergeRight (by simpa using not_le.mpr hshortb)
        (List.getLast?_singleton _) (by dsimp only; linarith [hgap])]
      rw [minPassLoop_nil]
      dsimp only [List.cons_append, List.nil_append]
      rw [show min b1 c1 = b1 from min_eq_left hbc,
        show max b2 c2 = c2 from max_eq_right hb2c2, eb1, ec2]
    have hpass2 : minPassLoop m [] false [(a1, a2), (b1, c2)]
        = ([(a1, a2), (b1, c2)], false) := by
      rw [minPassLoop_good (by simpa using hgooda)]
      dsimp only [List.nil_append]
      rw [e1, e2]
      rw [minPassLoop_good (by simpa using hgoodbc), minPassLoop_nil]
      dsimp only [List.cons_append, List.nil_append]
      rw [eb1, ec2]
    show minLoop m 4 [(a1, a2), (b1, b2), (c1, c2)] = [(a1, a2), (b1, c2)]
    rw [show (4 : ℕ) = 3 + 1 from rfl, minLoop_step hpass1,
      show (3 : ℕ) = 2 + 1 from rfl, minLoop_fixpoint hpass2]

/-! ## Round-trip machinery for the silences.json re-load (claim C8) -/

theorem round3_sub_grid {g : ℚ} (hg : OnGrid g) (q : ℚ) :
    round3 (q - g) = round3 q - g := by
  obtain ⟨m, rfl⟩ := onGrid_iff.mp hg
  unfold round3
  rw [show 1000 * (q - (m : ℚ) / 1000) = 1000 * q - (m : ℚ) by ring,
    show (1000 * q - (m : ℚ)) = 1000 * q - ((m : ℤ) : ℚ) by norm_num,
    round_sub_int]
  push_cast
  ring

theorem grid_pos {q : ℚ} (hg : OnGrid q) (h : 0 < q) : 1/1000 ≤ q := by
  have := grid_gap onGrid_zero hg h
  linarith

theorem pos_of_round3_pos {d : ℚ} (h : 0 < round3 d) : 0 < d := by
  have h1 := grid_pos (onGrid_round3 d) h
  have h2 := abs_le.mp (abs_round3_sub d)
  linarith

theorem lt_of_grid_lt_round3 {e d : ℚ} (hg : OnGrid e) (h : e < round3 d) :
    e < d := by
  have h1 := grid_gap hg (onGrid_round3 d) h
  have h2 := abs_le.mp (abs_round3_sub d)
  linarith

theorem pairwise_filterMap_of_pairwise {α β : Type} {R : α → α → Prop}
    {S : β → β → Prop} (f : α → Option β) {l : List α}
    (h : ∀ a ∈ l, ∀ b ∈ l, R a b → ∀ x, f a = some x → ∀ y, f b = some y → S x y)
    (hp : List.Pairwise R l) : List.Pairwise S (l.filterMap f) := by
  induction l with
  | nil => simp
  | cons a t ih =>
    rw [List.filterMap_cons]
    obtain ⟨ha, hp2⟩ := List.pairwise_cons.mp hp
    have ih2 := ih (fun x hx y hy => h x (by simp [hx]) y (by simp [hy])) hp2
    cases hfa : f a with
    | none => exact ih2
    | some x =>
      refine List.pairwise_cons.mpr ⟨?_, ih2⟩
      intro y hy
      rw [List.mem_filterMap] at hy
      obtain ⟨b, hb, hfb⟩ := hy
      exact h a (by simp) b (by simp [hb]) (ha b hb) x hfa y hfb

theorem mergeSilLoop_norm (rest : List SilenceIv) :
    ∀ (front : List SilenceIv) (last : SilenceIv),
    (∀ f ∈ front, GoodIv f) → GoodIv last →
    (∀ iv ∈ rest, GoodIv iv) →
    (∀ iv ∈ rest, last.start_sec ≤ iv.start_sec) →
    List.Sorted silLE rest →
    (∀ f ∈ front, SilGap f last) →
    List.Pairwise SilGap front →
    (∀ iv ∈ mergeSilLoop front last rest, GoodIv iv) ∧
      List.Pairwise SilGap (mergeSilLoop front last rest) := by
  induction rest with
  | nil =>
    intro front last hf hl hr hstart hsorted hg hpf
    show (∀ iv ∈ front ++ [last], GoodIv iv) ∧ List.Pairwise SilGap (front ++ [last])
    constructor
    · intro iv hiv
      rcases List.mem_append.mp hiv with h | h
      · exact hf iv h
      · rw [List.mem_singleton] at h
        rw [h]
        exact hl
    · rw [List.pairwise_append]
      refine ⟨hpf, List.pairwise_singleton _ _, ?_⟩
      intro f hfm x hx
      rw [List.mem_singleton] at hx
      rw [hx]
      exact hg f hfm
  | cons iv rest ih =>
    intro front last hf hl hr hstart hsorted hg hpf
    obtain ⟨hl1, hl2, hl3, hl4⟩ := hl
    obtain ⟨hi1, hi2, hi3, hi4⟩ := hr iv (by simp)
    have hstep : mergeSilLoop front last (iv :: rest)
        = if iv.start_sec - last.end_sec ≤ 1/1000 then
            mergeSilLoop front (mergedSil last iv) rest
          else mergeSilLoop (front ++ [last]) iv rest := rfl
    by_cases hm : iv.start_sec - last.end_sec ≤ 1/1000
    · rw [hstep, if_pos hm]
      have hsle : last.start_sec ≤ iv.start_sec := hstart iv (by simp)
      have hms : (mergedSil last iv).start_sec = last.start_sec := by
        show round3 (min last.start_sec iv.start_sec) = last.start_sec
        rw [min_eq_left hsle]
        exact hl1
      have hme : (mergedSil last iv).end_sec = max last.end_sec iv.end_sec := by
        show round3 (max last.end_sec iv.end_sec) = max last.end_sec iv.end_sec
        exact onGrid_max hl2 hi2
      refine ih front (mergedSil last iv) hf ?_ (fun x hx => hr x (by simp [hx]))
        ?_ hsorted.of_cons ?_ hpf
      · refine ⟨?_, ?_, ?_, ?_⟩
        · rw [show OnGrid (mergedSil last iv).start_sec
            = OnGrid last.start_sec by rw [hms]]
          exact hl1
        · rw [show OnGrid (mergedSil last iv).end_sec
            = OnGrid (max last.end_sec iv.end_sec) by rw [hme]]
          exact onGrid_max hl2 hi2
        · rw [hms]; exact hl3
        · rw [hms, hme]
          exact lt_of_lt_of_le hl4 (le_max_left _ _)
      · intro x hx
        rw [hms]
        exact hstart x (by simp [hx])
      · intro f hfm
        show f.end_sec + 2/1000 ≤ (mergedSil last iv).start_sec
        rw [hms]
        exact hg f hfm
    · rw [hstep, if_neg hm]
      have hlt : 1/1000 < iv.start_sec - last.end_sec := not_le.mp hm
      have hgl : SilGap last iv := by
        show last.end_sec + 2/1000 ≤ iv.start_sec
        have hgrid : OnGrid (iv.start_sec - last.end_sec) := onGrid_sub hi1 hl2
        have h1000 : OnGrid (1/1000 : ℚ) := onGrid_iff.mpr ⟨1, by norm_num⟩
        have := grid_gap h1000 hgrid hlt
        linarith
      refine ih (front ++ [last]) iv ?_ (hr iv (by simp))
        (fun x hx => hr x (by simp [hx])) ?_ hsorted.of_cons ?_ ?_
      · intro f hfm
        rcases List.mem_append.mp hfm with h | h
        · exact hf f h
        · rw [List.mem_singleton] at h
          rw [h]
          exact ⟨hl1, hl2, hl3, hl4⟩
      · intro x hx
        exact (List.sorted_cons.mp hsorted).1 x hx
      · intro f hfm
        rcases List.mem_append.mp hfm with h | h
        · have := hg f h
          show f.end_sec + 2/1000 ≤ iv.start_sec
          have h2 : f.end_sec + 2/1000 ≤ last.start_sec := this
          linarith
        · rw [List.mem_singleton] at h
          rw [h]
          exact hgl
      · rw [List.pairwise_append]
        refine ⟨hpf, List.pairwise_singleton _ _, ?_⟩
        intro f hfm x hx
        rw [List.mem_singleton] at hx
        rw [hx]
        exact hg f hfm

theorem clipSil_eval (d : ℚ) (l : List SilenceIv) (h : ∀ iv ∈ l, GoodIv iv) :
    clipSil (some d) l
      = l.filterMap (fun iv =>
          if iv.start_sec < d then
            some ⟨iv.start_sec, round3 (min iv.end_sec d),
              round3 (min iv.end_sec d) - iv.start_sec⟩
          else none) := by
  induction l with
  | nil => rfl
  | cons iv rest ih =>
    obtain ⟨h1, h2, h3, h4⟩ := h iv (by simp)
    have ihr := ih (fun x hx => h x (by simp [hx]))
    have hstep : clipSil (some d) (iv :: rest)
        = if min iv.end_sec d ≤ min (max 0 iv.start_sec) d then clipSil (some d) rest
          else ⟨round3 (min (max 0 iv.start_sec) d), round3 (min iv.end_sec d),
              round3 (min iv.end_sec d - min (max 0 iv.start_sec) d)⟩
            :: clipSil (some d) rest := rfl
    rw [hstep, max_eq_right h3]
    by_cases hlt : iv.start_sec < d
    · rw [min_eq_left (le_of_lt hlt)]
      have hkeep : ¬ (min iv.end_sec d ≤ iv.start_sec) := by
        simp only [not_le, lt_min_iff]
        exact ⟨h4, hlt⟩
      rw [if_neg hkeep, List.filterMap_cons, if_pos hlt]
      rw [show round3 iv.start_sec = iv.start_sec from h1,
        round3_sub_grid h1 (min iv.end_sec d), ihr]
    · have hds : d ≤ iv.start_sec := not_lt.mp hlt
      rw [min_eq_right hds]
      have hdrop : min iv.end_sec d ≤ d := min_le_right _ _
      rw [if_pos hdrop, List.filterMap_cons, if_neg hlt, ihr]

theorem clipSil_norm (d : ℚ) (l : List SilenceIv) (hgood : ∀ iv ∈ l, GoodIv iv)
    (hpw : List.Pairwise SilGap l) : NormOut (clipSil (some d) l) d := by
  rw [clipSil_eval d l hgood]
  constructor
  · intro iv2 hiv2
    rw [List.mem_filterMap] at hiv2
    obtain ⟨iv, hiv, hf⟩ := hiv2
    obtain ⟨h1, h2, h3, h4⟩ := hgood iv hiv
    by_cases hlt : iv.start_sec < d
    · rw [if_pos hlt] at hf
      obtain rfl := Option.some.inj hf
      refine ⟨h1, onGrid_round3 _, h3, ?_, ?_, rfl, ?_⟩
      · exact le_round3_of_grid_le h1 (le_min (le_of_lt h4) (le_of_lt hlt))
      · exact round3_mono (min_le_right _ _)
      · show iv.start_sec < round3 (min iv.end_sec d) ∨ _
        rcases lt_or_eq_of_le
            (le_round3_of_grid_le h1 (le_min (le_of_lt h4) (le_of_lt hlt)))
          with hc | hc
        · exact Or.inl hc
        · refine Or.inr ⟨hc, ?_, ?_⟩
          all_goals rcases le_or_lt iv.end_sec d with hed | hed
          · exfalso
            rw [min_eq_left hed, show round3 iv.end_sec = iv.end_sec from h2] at hc
            exact absurd hc (ne_of_lt h4)
          · rw [min_eq_right (le_of_lt hed)]
          · exfalso
            rw [min_eq_left hed, show round3 iv.end_sec = iv.end_sec from h2] at hc
            exact absurd hc (ne_of_lt h4)
          · rw [min_eq_right (le_of_lt hed)] at hc
            rw [← hc]
            exact hlt
    · rw [if_neg hlt] at hf
      exact absurd hf (by simp)
  · refine pairwise_filterMap_of_pairwise _ ?_ hpw
    intro a ha b hb hab x hx y hy
    by_cases hda : a.start_sec < d
    · rw [if_pos hda] at hx
      obtain rfl := Option.some.inj hx
      by_cases hdb : b.start_sec < d
      · rw [if_pos hdb] at hy
        obtain rfl := Option.some.inj hy
        show round3 (min a.end_sec d) + 2/1000 ≤ b.start_sec
        have hle : round3 (min a.end_sec d) ≤ a.end_sec :=
          round3_le_of_le_grid (hgood a ha).2.1 (min_le_left _ _)
        have hg : a.end_sec + 2/1000 ≤ b.start_sec := hab
        linarith
      · rw [if_neg hdb] at hy
        exact absurd hy (by simp)
    · rw [if_neg hda] at hx
      exact absurd hx (by simp)

theorem normalize_normOut (parsed : List SilenceIv) (d : ℚ)
    (hp : ParsedOk parsed) : NormOut (normalize_intervals parsed (some d)) d := by
  match parsed with
  | [] =>
    show NormOut [] d
    exact ⟨by simp, by simp⟩
  | x :: rest =>
    cases hs : List.insertionSort silLE (x :: rest) with
    | nil =>
      exfalso
      have := (List.perm_insertionSort silLE (x :: rest)).length_eq
      rw [hs] at this
      simp at this
    | cons y r =>
      have hperm := List.perm_insertionSort silLE (x :: rest)
      rw [hs] at hperm
      have hgood : ∀ iv ∈ y :: r, GoodIv iv := fun iv hiv => hp iv (hperm.subset hiv)
      have hsorted : List.Sorted silLE (y :: r) := by
        have := List.sorted_insertionSort silLE (x :: rest)
        rwa [hs] at this
      have hM := mergeSilLoop_norm r [] y (by simp) (hgood y (by simp))
        (fun iv hiv => hgood iv (by simp [hiv]))
        (fun iv hiv => (List.sorted_cons.mp hsorted).1 iv hiv)
        hsorted.of_cons (by simp) (by simp)
      have hn : normalize_intervals (x :: rest) (some d)
          = clipSil (some d)
              (match List.insertionSort silLE (x :: rest) with
               | [] => []
               | z :: r2 => mergeSilLoop [] z r2) := rfl
      rw [hn, hs]
      exact clipSil_norm d (mergeSilLoop [] y r) hM.1 hM.2

theorem mergeSilLoop_sep (rest : List SilenceIv) :
    ∀ (front : List SilenceIv) (last : SilenceIv),
    List.Chain' (fun a b => 1/1000 < b.start_sec - a.end_sec) (last :: rest) →
    mergeSilLoop front last rest = front ++ last :: rest := by
  induction rest with
  | nil => intro front last _; rfl
  | cons iv rest ih =>
    intro front last hchain
    have h1 : 1/1000 < iv.start_sec - last.end_sec := (List.chain'_cons.mp hchain).1
    have hstep : mergeSilLoop front last (iv :: rest)
        = if iv.start_sec - last.end_sec ≤ 1/1000 then
            mergeSilLoop front (mergedSil last iv) rest
          else mergeSilLoop (front ++ [last]) iv rest := rfl
    rw [hstep, if_neg (not_le.mpr h1), ih (front ++ [last]) iv (List.chain'_cons.mp hchain).2]
    simp

theorem clipSil_filter (d2 : ℚ) (l : List SilenceIv)
    (h : ∀ iv ∈ l, OnGrid iv.start_sec ∧ OnGrid iv.end_sec ∧ 0 ≤ iv.start_sec ∧
      iv.start_sec ≤ iv.end_sec ∧ iv.end_sec ≤ d2 ∧
      iv.duration_sec = iv.end_sec - iv.start_sec) :
    clipSil (some d2) l = l.filter (fun iv => decide (iv.start_sec < iv.end_sec)) := by
  induction l with
  | nil => rfl
  | cons iv0 rest ih =>
    obtain ⟨s, e, du⟩ := iv0
    obtain ⟨h1, h2, h3, h4, h5, h6⟩ := h ⟨s, e, du⟩ (by simp)
    simp only at h1 h2 h3 h4 h5 h6
    have ihr := ih (fun x hx => h x (by simp [hx]))
    have hstep : clipSil (some d2) (⟨s, e, du⟩ :: rest)
        = if min e d2 ≤ min (max 0 s) d2 then clipSil (some d2) rest
          else ⟨round3 (min (max 0 s) d2), round3 (min e d2),
              round3 (min e d2 - min (max 0 s) d2)⟩ :: clipSil (some d2) rest := rfl
    rw [hstep, max_eq_right h3, min_eq_left (le_trans h4 h5), min_eq_left h5]
    by_cases hdeg : e ≤ s
    · rw [if_pos hdeg, ihr, List.filter_cons,
        show (decide (SilenceIv.start_sec ⟨s, e, du⟩ < SilenceIv.end_sec ⟨s, e, du⟩))
          = false from decide_eq_false (by simpa using not_lt.mpr hdeg)]
      simp
    · rw [if_neg hdeg, ihr, List.filter_cons,
        show (decide (SilenceIv.start_sec ⟨s, e, du⟩ < SilenceIv.end_sec ⟨s, e, du⟩))
          = true from decide_eq_true (by simpa using not_le.mp hdeg)]
      simp only [if_true]
      rw [show round3 s = s from h1, show round3 e = e from h2,
        show round3 (e - s) = e - s from onGrid_sub h2 h1, ← h6]

theorem normalize_again (L : List SilenceIv) (d : ℚ) (h : NormOut L d) :
    normalize_intervals L (some (round3 d))
      = L.filter (fun iv => decide (iv.start_sec < iv.end_sec)) := by
  obtain ⟨hm, hpw⟩ := h
  cases L with
  | nil => rfl
  | cons x rest =>
    have hsorted : List.Sorted silLE (x :: rest) := by
      refine hpw.imp_of_mem ?_
      intro a b ha hb hab
      have hsa := (hm a ha).2.2.2.1
      have hg : a.end_sec + 2/1000 ≤ b.start_sec := hab
      show a.start_sec ≤ b.start_sec
      linarith
    have hn : normalize_intervals (x :: rest) (some (round3 d))
        = clipSil (some (round3 d))
            (match List.insertionSort silLE (x :: rest) with
             | [] => []
             | z :: r2 => mergeSilLoop [] z r2) := rfl
    rw [hn, List.Sorted.insertionSort_eq hsorted]
    show clipSil (some (round3 d)) (mergeSilLoop [] x rest) = _
    rw [mergeSilLoop_sep rest [] x ?_, List.nil_append]
    · refine clipSil_filter (round3 d) (x :: rest) ?_
      intro iv hiv
      obtain ⟨g1, g2, g3, g4, g5, g6, _⟩ := hm iv hiv
      exact ⟨g1, g2, g3, g4, g5, g6⟩
    · refine List.Chain'.imp ?_ hpw.chain'
      intro a b hab
      show 1/1000 < b.start_sec - a.end_sec
      have hg : a.end_sec + 2/1000 ≤ b.start_sec := hab
      linarith

theorem lastOfD_concat {α : Type} (a : α) (l : List α) (z : α) :
    lastOfD a (l ++ [z]) = z := by
  induction l generalizing a with
  | nil => rfl
  | cons b t ih => exact ih b

theorem midGaps_snoc (a : SilenceIv) (l : List SilenceIv) (z : SilenceIv) :
    midGaps ((a :: l) ++ [z])
      = midGaps (a :: l)
        ++ (if 0 < z.start_sec - (lastOfD a l).end_sec
            then [(round3 (lastOfD a l).end_sec, round3 z.start_sec)] else []) := by
  induction l generalizing a with
  | nil =>
    show (if 0 < z.start_sec - a.end_sec
          then [(round3 a.end_sec, round3 z.start_sec)] else []) ++ midGaps [z]
        = midGaps [a] ++ (if 0 < z.start_sec - a.end_sec
          then [(round3 a.end_sec, round3 z.start_sec)] else [])
    rw [show midGaps [z] = [] from rfl, show midGaps [a] = [] from rfl,
      List.append_nil, List.nil_append]
  | cons b t ih =>
    show (if 0 < b.start_sec - a.end_sec
          then [(round3 a.end_sec, round3 b.start_sec)] else [])
        ++ midGaps ((b :: t) ++ [z]) = _
    rw [ih b]
    show _ = ((if 0 < b.start_sec - a.end_sec
          then [(round3 a.end_sec, round3 b.start_sec)] else [])
        ++ midGaps (b :: t))
        ++ (if 0 < z.start_sec - (lastOfD b t).end_sec
            then [(round3 (lastOfD b t).end_sec, round3 z.start_sec)] else [])
    rw [List.append_assoc]

theorem tail_filter_eq {d e : ℚ} (hg : OnGrid e) (hle : e ≤ round3 d)
    (X : List (ℚ × ℚ)) :
    (X ++ (if e < round3 d then [(round3 e, round3 (round3 d))] else [])).filter
        (fun p => decide (p.1 < p.2))
      = (X ++ (if e < d then [(round3 e, round3 d)] else [])).filter
        (fun p => decide (p.1 < p.2)) := by
  rcases lt_or_eq_of_le hle with hlt | heq
  · rw [if_pos hlt, if_pos (lt_of_grid_lt_round3 hg hlt),
      show round3 (round3 d) = round3 d from onGrid_round3 d]
  · rw [← heq, if_neg (lt_irrefl e)]
    by_cases hh : e < d
    · rw [if_pos hh, List.filter_append, List.filter_append,
        show round3 e = e from hg]
      simp
    · rw [if_neg hh]

theorem complement_cons (f : SilenceIv) (t : List SilenceIv) (D : ℚ) :
    complement_to_speech_segments (f :: t) D
      = ((if 0 < f.start_sec then [(round3 0, round3 f.start_sec)] else [])
          ++ midGaps (f :: t)
          ++ (if (lastOfD f t).end_sec < D
              then [(round3 (lastOfD f t).end_sec, round3 D)] else [])).filter
          (fun p => decide (p.1 < p.2)) := rfl

theorem complement_transfer (L : List SilenceIv) (d : ℚ) (h : NormOut L d)
    (hd : 0 < round3 d) :
    complement_to_speech_segments
        (L.filter (fun iv => decide (iv.start_sec < iv.end_sec))) (round3 d)
      = complement_to_speech_segments L d := by
  obtain ⟨hm, hpw⟩ := h
  have hd0 : 0 < d := pos_of_round3_pos hd
  have hrr : round3 (round3 d) = round3 d := onGrid_round3 d
  cases L with
  | nil =>
    show (if 0 < round3 d then [(round3 0, round3 (round3 d))] else [])
        = (if 0 < d then [(round3 0, round3 d)] else [])
    rw [if_pos hd, if_pos hd0, hrr]
  | cons f t =>
    cases hrev : t.reverse with
    | nil =>
      have ht : t = [] := by simpa using congrArg List.reverse hrev
      subst ht
      obtain ⟨g1, g2, g3, g4, g5, g6, g7⟩ := hm f (by simp)
      rcases g7 with hnd | ⟨hse, hez, hless⟩
      · have hkeep : List.filter (fun iv => decide (iv.start_sec < iv.end_sec)) [f]
            = [f] := by simp [hnd]
        rw [hkeep, complement_cons, complement_cons,
          show midGaps [f] = [] from rfl, show lastOfD f [] = f from rfl]
        simp only [List.append_nil]
        exact tail_filter_eq g2 g5 _
      · have hfs : f.start_sec = round3 d := hse.trans hez
        have hdrop : List.filter (fun iv => decide (iv.start_sec < iv.end_sec)) [f]
            = [] := by simp [hse]
        rw [hdrop]
        have hnil : complement_to_speech_segments [] (round3 d) = [(0, round3 d)] := by
          show (if 0 < round3 d then [(round3 0, round3 (round3 d))] else []) = _
          rw [if_pos hd, round3_zero, hrr]
        rw [hnil, complement_cons,
          show midGaps [f] = [] from rfl, show lastOfD f [] = f from rfl,
          if_pos (show 0 < f.start_sec by rw [hfs]; exact hd),
          if_pos (show f.end_sec < d by rw [hez]; exact hless),
          round3_zero, show round3 f.start_sec = f.start_sec from g1,
          show round3 f.end_sec = f.end_sec from g2, hfs, hez]
        simp [hd]
    | cons z r2 =>
      have ht : t = r2.reverse ++ [z] := by
        have h2 := congrArg List.reverse hrev
        simpa using h2
      subst ht
      obtain ⟨gz1, gz2, gz3, gz4, gz5, gz6, gz7⟩ := hm z (by simp)
      have hmem_init : ∀ x ∈ f :: r2.reverse, x ∈ f :: (r2.reverse ++ [z]) := by
        intro x hx
        have h3 : x ∈ (f :: r2.reverse) ++ [z] := List.mem_append_left _ hx
        simpa using h3
      have hsplit := List.pairwise_append.mp
        (show List.Pairwise SilGap ((f :: r2.reverse) ++ [z]) from hpw)
      have hcross : ∀ x ∈ f :: r2.reverse, SilGap x z :=
        fun x hx => hsplit.2.2 x hx z (by simp)
      have hinit_nondeg : ∀ x ∈ f :: r2.reverse, x.start_sec < x.end_sec := by
        intro x hx
        obtain ⟨x1, x2, x3, x4, x5, x6, x7⟩ := hm x (hmem_init x hx)
        rcases x7 with h7 | ⟨hxe, hxz, _⟩
        · exact h7
        · exfalso
          have hgap : x.end_sec + 2/1000 ≤ z.start_sec := hcross x hx
          rw [hxz] at hgap
          linarith
      have hfilter_init : List.filter (fun iv => decide (iv.start_sec < iv.end_sec))
          (f :: r2.reverse) = f :: r2.reverse := by
        rw [List.filter_eq_self]
        intro x hx
        exact decide_eq_true (hinit_nondeg x hx)
      have hw_mem : lastOfD f r2.reverse ∈ f :: r2.reverse := lastOfD_mem f r2.reverse
      have hwgap : (lastOfD f r2.reverse).end_sec + 2/1000 ≤ z.start_sec :=
        hcross _ hw_mem
      obtain ⟨w1, w2, w3, w4, w5, w6, w7⟩ := hm (lastOfD f r2.reverse)
        (hmem_init _ hw_mem)
      have hlastL : lastOfD f (r2.reverse ++ [z]) = z := lastOfD_concat f r2.reverse z
      rcases gz7 with hnd | ⟨hse, hez, hless⟩
      · have hfL : List.filter (fun iv => decide (iv.start_sec < iv.end_sec))
            (f :: (r2.reverse ++ [z])) = f :: (r2.reverse ++ [z]) := by
          rw [List.filter_eq_self]
          intro x hx
          rcases List.mem_append.mp (show x ∈ (f :: r2.reverse) ++ [z] from hx)
            with h3 | h3
          · exact decide_eq_true (hinit_nondeg x h3)
          · rw [List.mem_singleton] at h3
            rw [h3]
            exact decide_eq_true hnd
        rw [hfL, complement_cons, complement_cons, hlastL]
        exact tail_filter_eq gz2 gz5 _
      · have hzs : z.start_sec = round3 d := hse.trans hez
        have hfL : List.filter (fun iv => decide (iv.start_sec < iv.end_sec))
            (f :: (r2.reverse ++ [z])) = f :: r2.reverse := by
          show List.filter _ ((f :: r2.reverse) ++ [z]) = f :: r2.reverse
          rw [List.filter_append, hfilter_init,
            show List.filter (fun iv => decide (iv.start_sec < iv.end_sec)) [z] = []
              from by simp [hse],
            List.append_nil]
        rw [hfL, complement_cons, complement_cons, hlastL]
        have hmgz : midGaps (f :: (r2.reverse ++ [z]))
            = midGaps (f :: r2.reverse)
              ++ [(round3 (lastOfD f r2.reverse).end_sec, round3 z.start_sec)] := by
          have h4 := midGaps_snoc f r2.reverse z
          rw [if_pos (by linarith)] at h4
          exact h4
        rw [hmgz]
        have hw_lt : (lastOfD f r2.reverse).end_sec < round3 d := by
          rw [hzs] at hwgap
          linarith
        rw [if_pos hw_lt, if_pos (show z.end_sec < d by rw [hez]; exact hless),
          hrr, show round3 z.start_sec = z.start_sec from gz1, hzs,
          show round3 z.end_sec = z.end_sec from gz2, hez]
        simp only [List.append_assoc, List.filter_append]
        rw [show List.filter (fun p => decide (p.1 < p.2)) [((round3 d : ℚ), round3 d)]
            = [] from by simp, List.append_nil]

/-- C8 (amended): whenever the stored round-3 duration is positive, the
round trip the claim describes is exact — re-normalizing the stored
(already normalized) silence list against the stored `round(duration, 3)`
and re-computing the complement reproduces bitwise the
`speech_segments_raw` the silence strategy first produced.  The hypotheses
are what the strategy guarantees: `ParsedOk` is the contract of
`parse_silencedetect_output`, and `0 < round(duration, 3)` is the planner's
`if duration_sec:` truthiness gate for reusing `silences.json`. -/
theorem c8_silences_roundtrip_amended (parsed : List SilenceIv) (d : ℚ)
    (hp : ParsedOk parsed) (hd : 0 < round3 d) :
    complement_to_speech_segments
        (normalize_intervals (normalize_intervals parsed (some d))
          (some (round3 d))) (round3 d)
      = complement_to_speech_segments (normalize_intervals parsed (some d)) d := by
  have hN := normalize_normOut parsed d hp
  rw [normalize_again _ d hN]
  exact complement_transfer _ d hN hd

/-- Witness for C8 (amended): one detected silence `(0.5, 1.0)` in a
10-second file; both hypotheses hold and the theorem applies. -/
theorem c8_silences_roundtrip_amended_witness :
    ParsedOk [⟨1/2, 1, 1/2⟩] ∧ (0 : ℚ) < round3 10 ∧
    complement_to_speech_segments
        (normalize_intervals (normalize_intervals [⟨1/2, 1, 1/2⟩] (some 10))
          (some (round3 10))) (round3 10)
      = complement_to_speech_segments
          (normalize_intervals [⟨1/2, 1, 1/2⟩] (some 10)) 10 := by
  have hp : ParsedOk [⟨1/2, 1, 1/2⟩] := by
    intro iv hiv
    rw [List.mem_singleton] at hiv
    subst hiv
    refine ⟨?_, ?_, by norm_num, by norm_num⟩
    · show round3 (1/2) = 1/2
      norm_num [round3, round_eq]
    · show round3 1 = 1
      norm_num [round3, round_eq]
  have hd : (0 : ℚ) < round3 10 := by norm_num [round3, round_eq]
  exact ⟨hp, hd, c8_silences_roundtrip_amended _ _ hp hd⟩

/-- Witness for C5: the isolated-drop conjunct applied at the concrete
segment `(0, 0.4)` with `min_seg_sec = 1`. -/
theorem c5_enforce_min_merge_deterministic_witness :
    ((2 : ℚ)/5 - 0 < 1) ∧
    enforce_min_duration_by_merge [((0 : ℚ), 2/5)] 1 none = [] :=
  ⟨by norm_num,
    c5_enforce_min_merge_deterministic.2.2.1 0 (2/5) 1 none (by norm_num)⟩

end OnePassSeg
